import Mathlib

/-!
# pod-patcher: a verification development

A shallow embedding of `main.go` (the Path of Diablo file patcher) and the
properties of its checksum engine, update planner, download worker and
directory validator.

Conventions of the embedding.

* A Go `string` holding file content is a list of bytes (`Content`); a Go
  `string` holding a name, a path, a URL or a rendered checksum is a Lean
  `String`.
* `uint32` values are natural numbers below `2 ^ 32`.
* `log.Fatal*` ends the process: a step that can call it returns an `Outcome`
  that records the filesystem at the moment of the exit.
* The filesystem and the network are explicit values passed to every
  operation that touches them.
-/

namespace PodPatcher

/-! ## Checksum engine: `hash/crc32`, `fmt.Sprintf("%X", _)` and `getChecksum` -/

/-- One byte of file content. -/
abbrev Byte := Fin 256

/-- The content of a file or of a response body, a Go string seen as its bytes. -/
abbrev Content := List Byte

/-- The reversed IEEE polynomial, `crc32.IEEE`. -/
def IEEE : Nat := 0xedb88320

/-- One round of the inner loop that fills the `hash/crc32` table
(`if crc&1 == 1 { crc = (crc >> 1) ^ poly } else { crc >>= 1 }`). -/
def tableStep (crc : Nat) : Nat :=
  if crc % 2 = 1 then (crc / 2) ^^^ IEEE else crc / 2

/-- Entry `i` of the IEEE table: eight rounds starting from `uint32(i)`. -/
def tableEntry (i : Nat) : Nat :=
  tableStep (tableStep (tableStep (tableStep (tableStep (tableStep (tableStep (tableStep i)))))))

/-- The byte loop of `hash/crc32`: `crc = tab[byte(crc)^v] ^ (crc >> 8)`. -/
def simpleUpdateLoop (crc : Nat) : List Byte → Nat
  | [] => crc
  | v :: p => simpleUpdateLoop (tableEntry ((crc % 256) ^^^ v.val) ^^^ (crc / 256)) p

/-- The function `crc32.ChecksumIEEE`: the register starts at `^0`, runs over every
byte, and is complemented at the end. -/
def ChecksumIEEE (p : Content) : Nat :=
  (simpleUpdateLoop (0 ^^^ 0xFFFFFFFF) p) ^^^ 0xFFFFFFFF

/-- The digit table used by the verb `%X`. -/
def udigits : List Char := "0123456789ABCDEF".toList

/-- Digit `d` of the table `udigits`. -/
def udigit (d : Nat) : Char := udigits.getD d '?'

/-- The base-16 loop of `fmt`: `for u >= 16 { buf[i] = digits[u&0xF]; u >>= 4 }` and
then `buf[i] = digits[u]`. The first argument bounds the number of rounds; `fmtX`
passes `u` itself, which is never reached. -/
def fmtXLoop : Nat → Nat → List Char → List Char
  | 0, u, buf => udigit u :: buf
  | fuel + 1, u, buf =>
    if u ≥ 16 then fmtXLoop fuel (u / 16) (udigit (u % 16) :: buf) else udigit u :: buf

/-- The rendering `fmt.Sprintf("%X", u)` of an unsigned integer. -/
def fmtX (u : Nat) : String := String.mk (fmtXLoop u u [])

/-- The source function `getChecksum`. -/
def getChecksum (content : Content) : String := fmtX (ChecksumIEEE content)

/-- Bytes of a text made of ASCII characters (used to write examples). -/
def asciiBytes (s : String) : Content := s.toList.map (fun c => Fin.ofNat c.toNat)

/-- Value of one upper-case hexadecimal digit, `none` for any other character. -/
def hexVal (c : Char) : Option Nat :=
  if '0' ≤ c ∧ c ≤ '9' then some (c.toNat - '0'.toNat)
  else if 'A' ≤ c ∧ c ≤ 'F' then some (c.toNat - 'A'.toNat + 10)
  else none

/-- Reading of a run of upper-case hexadecimal digits, most significant first. -/
def parseHexFrom (acc : Nat) : List Char → Option Nat
  | [] => some acc
  | c :: cs =>
    match hexVal c with
    | none => none
    | some d => parseHexFrom (acc * 16 + d) cs

/-- Reading of a non-empty upper-case hexadecimal numeral. -/
def parseHex (s : String) : Option Nat :=
  if s.data = [] then none else parseHexFrom 0 s.data

/-- The rendering `fmt.Sprintf("%08X", u)`: `%X` padded on the left with zeros to
eight characters. -/
def fmt08X (u : Nat) : String :=
  String.mk (List.replicate (8 - (fmtX u).data.length) '0' ++ (fmtX u).data)


/-! ## Lexical paths: the package `path` of the Go standard library

`path.Clean` works on the elements of a path, the runs of characters between
slashes. The model below follows it element by element with the two variables
of its loop: `out`, the elements written so far (most recent first), and
`dotdot`, the number of leading `..` elements of `out` that a later `..` must
not remove. -/

/-- The elements of a path: the runs of characters between slashes, empty runs
included (`"a//b"` has the elements `a`, the empty one, and `b`). -/
def splitSlash : List Char → List (List Char)
  | [] => [[]]
  | c :: cs =>
    if c = '/' then [] :: splitSlash cs
    else
      match splitSlash cs with
      | [] => [[c]]
      | e :: es => (c :: e) :: es

/-- The state of the loop of `path.Clean`. -/
structure CleanState where
  out : List (List Char)
  dotdot : Nat
  deriving DecidableEq, Repr

/-- One round of the loop of `path.Clean`, on one element: an empty element and `.`
are dropped; `..` removes the last element written when there is one past the
protected prefix (`out.w > dotdot`), is dropped on a rooted path, and is written and
protected otherwise; any other element is written. -/
def cleanStep (rooted : Bool) (st : CleanState) (e : List Char) : CleanState :=
  if e = [] then st
  else if e = ['.'] then st
  else if e = ['.', '.'] then
    if st.out.length > st.dotdot then { st with out := st.out.tail }
    else if rooted then st
    else { out := e :: st.out, dotdot := st.out.length + 1 }
  else { st with out := e :: st.out }

/-- The state of the loop of `path.Clean` is well formed: `out` is made of real
elements (not empty, not `.`, not `..`, without a slash) written after `dotdot`
protected `..` elements, and a rooted path protects none. -/
def CleanState.Inv (rooted : Bool) (st : CleanState) : Prop :=
  ∃ reals : List (List Char),
    st.out = reals ++ List.replicate st.dotdot ['.', '.']
    ∧ (∀ e ∈ reals, e ≠ [] ∧ e ≠ ['.'] ∧ e ≠ ['.', '.'] ∧ '/' ∉ e)
    ∧ (rooted = true → st.dotdot = 0)

/-- True when the path starts with a slash (`rooted := path[0] == '/'`). -/
def isRooted (p : List Char) : Bool := p.head? = some '/'

/-- The elements that `path.Clean` keeps, in path order. -/
def cleanElems (p : List Char) : List (List Char) :=
  ((splitSlash p).foldl (cleanStep (isRooted p)) ⟨[], 0⟩).out.reverse

/-- Elements written one after the other with a slash between two of them. -/
def joinSlash : List (List Char) → List Char
  | [] => []
  | [e] => e
  | e :: es => e ++ '/' :: joinSlash es

/-- The text of a cleaned path: the elements joined by slashes, after the leading
slash of a rooted path; `.` when nothing at all was written. -/
def renderPath (rooted : Bool) (elems : List (List Char)) : List Char :=
  if rooted then '/' :: joinSlash elems
  else if elems = [] then ['.']
  else joinSlash elems

/-- The library function `path.Clean`. -/
def pathClean (p : String) : String :=
  if p.data = [] then "." else String.mk (renderPath (isRooted p.data) (cleanElems p.data))

/-- The library function `path.Join`: the non-empty arguments joined by slashes and
cleaned; the empty string when every argument is empty. -/
def pathJoin (elem : List String) : String :=
  match elem.filter (fun e => e.data ≠ []) with
  | [] => ""
  | es => pathClean (String.mk (joinSlash (es.map String.data)))

/-- A path lies inside a base directory when, both once cleaned, they are both rooted
or both relative, the elements of the base are the first elements of the path, and
none of the elements that follow is `..`. -/
def liesInside (base p : String) : Prop :=
  isRooted base.data = isRooted p.data
    ∧ cleanElems base.data <+: cleanElems p.data
    ∧ ['.', '.'] ∉ (cleanElems p.data).drop (cleanElems base.data).length

instance (base p : String) : Decidable (liesInside base p) := by
  unfold liesInside
  infer_instance

/-- The last slash-separated run of a path and what precedes it, as in `path.Split`:
the directory part keeps its final slash. -/
def pathSplit (p : List Char) : List Char × List Char :=
  match (splitSlash p).reverse with
  | [] => ([], [])
  | last :: _ => (p.take (p.length - last.length), last)

/-- The library function `path.Dir`: the cleaned directory part of a path. -/
def pathDir (p : String) : String := pathClean (String.mk (pathSplit p.data).1)

/-! ## The manifest -/

/-- The source type `FileInf`: one `file` element of the manifest. -/
structure FileInf where
  Text : String
  Name : String
  Crc : String
  ShowDialog : String
  RestartRequired : String
  Link : List String
  deriving DecidableEq, Repr

/-- The source type `Filelist`: the decoded manifest (the field `XMLName`, which the
decoder fills with the name of the root element, is left out). -/
structure Filelist where
  Text : String
  File : List FileInf
  deriving DecidableEq, Repr

/-! ## The filesystem and the network

The filesystem is a finite table from path text to what is found there. Paths are
compared as text: every path the program uses comes out of `path.Join`, hence is
cleaned. Links and permissions are not part of the model. -/

/-- What a path names: a regular file with its content, or a directory. -/
inductive Node where
  | file (content : Content)
  | dir
  deriving DecidableEq, Repr

/-- The filesystem: the entries that exist. -/
abbrev FS := List (String × Node)

/-- The errors of the filesystem calls. -/
inductive OsError where
  | notExist
  | exist
  | isDir
  | notDir
  | notEmpty
  | permission
  | noSpace
  deriving DecidableEq, Repr

/-- The entry of the table for a path text, if any. -/
def FS.find : FS → String → Option Node
  | [], _ => none
  | (k, n) :: rest, p => if k = p then some n else FS.find rest p

/-- What is found at a path, if anything; the empty path names nothing. -/
def FS.lookup (fs : FS) (p : String) : Option Node :=
  if p = "" then none else fs.find p

/-- The table without the entry of a path. -/
def FS.del : FS → String → FS
  | [], _ => []
  | (k, n) :: rest, p => if k = p then FS.del rest p else (k, n) :: FS.del rest p

/-- The table with one entry set. -/
def FS.put (fs : FS) (p : String) (n : Node) : FS := (p, n) :: fs.del p

/-- True when some entry other than `p` itself has `p` as its directory. -/
def FS.hasChild (fs : FS) (p : String) : Bool :=
  fs.any (fun e => decide (e.1 ≠ p) && decide (pathDir e.1 = p))

/-- The call `os.Stat`: succeeds exactly when the path exists. -/
def osStat (fs : FS) (p : String) : Except OsError Node :=
  match fs.lookup p with
  | none => .error .notExist
  | some n => .ok n

/-- The call `ioutil.ReadFile`: the content of a regular file; a directory cannot be
read. -/
def readFile (fs : FS) (p : String) : Except OsError Content :=
  match fs.lookup p with
  | none => .error .notExist
  | some .dir => .error .isDir
  | some (.file c) => .ok c

/-- The check made by the system on the directory that is to hold a new entry; nothing
can be made at the empty path. -/
def parentCheck (fs : FS) (p : String) : Except OsError Unit :=
  if p = "" then .error .notExist
  else
    match fs.lookup (pathDir p) with
    | none => .error .notExist
    | some (.file _) => .error .notDir
    | some .dir => .ok ()

/-- The call `os.Create`: the path must not be a directory and its directory must
exist; the file is created, or emptied when it exists. -/
def osCreate (fs : FS) (p : String) : Except OsError FS :=
  match fs.lookup p with
  | some .dir => .error .isDir
  | _ =>
    match parentCheck fs p with
    | .error e => .error e
    | .ok _ => .ok (fs.put p (.file []))

/-- The bytes that reach the file in a write: all of them, or only as many as the
device has room for (`none`: room for everything). -/
def writtenBytes (room : Option Nat) (body : Content) : Content :=
  match room with
  | none => body
  | some k => if body.length ≤ k then body else body.take k

/-- The call `io.WriteString` on a file just created: the file holds the bytes that
could be written, and an error is returned when some could not. -/
def ioWriteString (room : Option Nat) (fs : FS) (p : String) (body : Content) :
    FS × Option OsError :=
  (fs.put p (.file (writtenBytes room body)),
    if (writtenBytes room body).length < body.length then some .noSpace else none)

/-- The call `os.Remove`: deletes a file, or a directory with nothing in it. -/
def osRemove (fs : FS) (p : String) : Except OsError FS :=
  match fs.lookup p with
  | none => .error .notExist
  | some (.file _) => .ok (fs.del p)
  | some .dir => if fs.hasChild p then .error .notEmpty else .ok (fs.del p)

/-- The call `os.Rename` for a regular file: the source must exist, the target must
not be a directory and its directory must exist; the file moves and replaces what
was at the target. The worker only renames the file it has just created, so a
directory as the source is outside the model and reported as an error. -/
def osRename (fs : FS) (oldpath newpath : String) : Except OsError FS :=
  match fs.lookup oldpath with
  | none => .error .notExist
  | some .dir => .error .isDir
  | some (.file c) =>
    match fs.lookup newpath with
    | some .dir => .error .isDir
    | _ =>
      match parentCheck fs newpath with
      | .error e => .error e
      | .ok _ => .ok ((fs.del oldpath).put newpath (.file c))

/-- The call `os.Mkdir`: the path must not exist and its directory must. -/
def osMkdir (fs : FS) (p : String) : Except OsError FS :=
  match fs.lookup p with
  | some _ => .error .exist
  | none =>
    match parentCheck fs p with
    | .error e => .error e
    | .ok _ => .ok (fs.put p .dir)

/-- The call `os.RemoveAll`: the path and everything below it are deleted. -/
def osRemoveAll (fs : FS) (p : String) : FS :=
  fs.filter (fun e => decide (e.1 ≠ p) && !(p.data ++ ['/']).isPrefixOf e.1.data)

/-- The answer of the network to `http.Get` followed by `ioutil.ReadAll`. -/
inductive HttpResult where
  | getError
  | readError
  | body (content : Content)
  deriving DecidableEq, Repr

/-- What the program does not control: the answer of the network for each URL, and the
room the device has for a write to each path (`none`: room for everything). -/
structure World where
  http : String → HttpResult
  room : String → Option Nat

/-- The error value a Go call returns, as far as this program tells them apart. -/
inductive GoError where
  | eof
  | os (e : OsError)
  | http
  | new (msg : String)
  deriving DecidableEq, Repr

/-- The places where the program ends its process with `log.Fatal*`. -/
inductive Fatal where
  | readLocal (e : OsError)
  | createTemp (e : GoError)
  | download (filePath : String) (e : GoError)
  | invalidChecksum (filePath expected got : String)
  | delete (filePath : String) (e : OsError)
  | rename (filePath podFile : String) (e : OsError)
  | readBody
  deriving DecidableEq, Repr

/-- The result of a step that may end the process: either it returns a value, or the
process exits; the filesystem at that moment is recorded in both cases. -/
inductive Outcome (α : Type) where
  | done (val : α) (fs : FS)
  | fatal (why : Fatal) (fs : FS)
  deriving DecidableEq, Repr

/-! ## The program: planner, spawn loop, worker -/

/-- The source function `downloadFile`: fetch the body; when a save path is given,
create the file and write the body to it. Returns the body and the error. The
statement `out, err := os.Create(savepath)` declares a second `err` inside the `if`
block, and `_, err = io.WriteString(out, bodyString)` assigns that one; the final
`return bodyString, err` returns the `err` of the function body, which is `nil` once
the body has been read. -/
def downloadFile (w : World) (fs : FS) (savepath url : String) :
    Outcome (Content × Option GoError) :=
  match w.http url with
  | .getError => .done ([], some .http) fs
  | .readError => .fatal .readBody fs
  | .body bodyString =>
    let err : Option GoError := none
    if savepath ≠ "" then
      match osCreate fs savepath with
      | .error e => .done (bodyString, some (.os e)) fs
      | .ok fs1 =>
        let (fs2, _) := ioWriteString (w.room savepath) fs1 savepath bodyString
        .done (bodyString, err) fs2
    else .done (bodyString, err) fs

/-- The source function `createDirIfNotExist`. -/
def createDirIfNotExist (fs : FS) (dir : String) : FS × Option GoError :=
  match osStat fs dir with
  | .ok _ => (fs, none)
  | .error e =>
    if e = .notExist then
      match osMkdir fs dir with
      | .ok fs1 => (fs1, none)
      | .error e1 => (fs, some (.os e1))
    else (fs, some (.os e))

/-- The planning loop of `main` (`for _, file := range files.File`), with the slice
`outdatedFiles` as an accumulator. -/
def planLoop (fs : FS) (podDir : String) (forceUpdate : Bool) :
    List FileInf → List FileInf → Outcome (List FileInf)
  | [], outdatedFiles => .done outdatedFiles fs
  | file :: rest, outdatedFiles =>
    let p := pathJoin [podDir, file.Name]
    match osStat fs p with
    | .error _ => planLoop fs podDir forceUpdate rest outdatedFiles
    | .ok _ =>
      match readFile fs p with
      | .error e => .fatal (.readLocal e) fs
      | .ok content =>
        if forceUpdate || (decide (file.Crc ≠ "") && decide (getChecksum content ≠ file.Crc)) then
          planLoop fs podDir forceUpdate rest (outdatedFiles ++ [file])
        else planLoop fs podDir forceUpdate rest outdatedFiles

/-- The Outdated Set: the planning loop started with `outdatedFiles := []FileInf{}`. -/
def planOutdated (fs : FS) (podDir : String) (forceUpdate : Bool) (files : Filelist) :
    Outcome (List FileInf) :=
  planLoop fs podDir forceUpdate files.File []

/-- The library function `strings.Index` from a given offset: the index of the first
occurrence of `substr`, or `-1`. -/
def stringsIndexFrom (substr : List Char) : List Char → Nat → Int
  | [], i => if substr = [] then (i : Int) else -1
  | c :: cs, i =>
    if substr.isPrefixOf (c :: cs) then (i : Int) else stringsIndexFrom substr cs (i + 1)

/-- The library function `strings.Index`. -/
def stringsIndex (s substr : String) : Int := stringsIndexFrom substr.data s.data 0

/-- The arguments of one `go downloadAndReplace(...)` statement. -/
structure Worker where
  file : String
  downloadDir : String
  url : String
  checksum : String
  deriving DecidableEq, Repr

/-- The inner loop of the spawn loop (`for _, url := range file.Link`): the link at
which the worker is started and the loop left by `break`, if any. -/
def firstSecureLink : List String → Option String
  | [] => none
  | url :: rest =>
    if stringsIndex url "https://" = 0 then some url else firstSecureLink rest

/-- The spawn loop of `main` (`for _, file := range outdatedFiles`): the workers
started, in the order of their `go` statements. -/
def spawnLoop (downloadDir : String) : List FileInf → List Worker
  | [] => []
  | file :: rest =>
    match firstSecureLink file.Link with
    | some url => ⟨file.Name, downloadDir, url, file.Crc⟩ :: spawnLoop downloadDir rest
    | none => spawnLoop downloadDir rest

/-- The source function `downloadAndReplace` (the wait group and the progress bar
left out). -/
def downloadAndReplace (podDir : String) (w : World) (fs : FS)
    (file downloadDir url checksum : String) : Outcome Unit :=
  let filePath := pathJoin [downloadDir, file]
  let podFile := pathJoin [podDir, file]
  match downloadFile w fs filePath url with
  | .fatal why fs1 => .fatal why fs1
  | .done (_, some err) fs1 => .fatal (.download filePath err) fs1
  | .done (content, none) fs1 =>
    if checksum ≠ "" ∧ getChecksum content ≠ checksum then
      .fatal (.invalidChecksum filePath checksum (getChecksum content)) fs1
    else
      match osStat fs1 podFile with
      | .ok _ =>
        match osRemove fs1 podFile with
        | .error e => .fatal (.delete filePath e) fs1
        | .ok fs2 =>
          match osRename fs2 filePath podFile with
          | .error e => .fatal (.rename filePath podFile e) fs2
          | .ok fs3 => .done () fs3
      | .error _ =>
        match osRename fs1 filePath podFile with
        | .error e => .fatal (.rename filePath podFile e) fs1
        | .ok fs3 => .done () fs3

/-- The workers run one after the other in the order they were started; the first
fatal error ends the process. With a single worker this is the only schedule. -/
def runWorkers (podDir : String) (w : World) : FS → List Worker → Outcome Unit
  | fs, [] => .done () fs
  | fs, job :: rest =>
    match downloadAndReplace podDir w fs job.file job.downloadDir job.url job.checksum with
    | .fatal why fs1 => .fatal why fs1
    | .done _ fs1 => runWorkers podDir w fs1 rest

/-- The part of `main` after the manifest is decoded: plan, create the temp
directory, start the workers, wait for them, delete the temp directory. -/
def updateRun (podDir : String) (forceUpdate : Bool) (w : World) (fs : FS)
    (files : Filelist) : Outcome Unit :=
  match planOutdated fs podDir forceUpdate files with
  | .fatal why fs1 => .fatal why fs1
  | .done outdatedFiles _ =>
    if outdatedFiles.length = 0 then .done () fs
    else
      let downloadDir := pathJoin [podDir, "/temp"]
      match createDirIfNotExist fs downloadDir with
      | (fs1, some err) => .fatal (.createTemp err) fs1
      | (fs1, none) =>
        match runWorkers podDir w fs1 (spawnLoop downloadDir outdatedFiles) with
        | .fatal why fs2 => .fatal why fs2
        | .done _ fs2 => .done () (osRemoveAll fs2 downloadDir)

/-! ## The directory validator: `filepath.Walk` and `findPodDir` -/

/-- A Go slice of strings: its backing array and its length. The capacity is the length
of the array; nothing in `findPodDir` grows a slice past it. -/
structure Slice where
  array : List String
  len : Nat
  deriving DecidableEq, Repr

/-- The elements of a slice. -/
def Slice.toList (s : Slice) : List String := s.array.take s.len

/-- The expression `append(files[:i], files[i+1:]...)`: `files[i+1:]` needs
`i + 1 ≤ len(files)`, else the program panics (`none`); the elements after index `i`
are moved one place down inside the same backing array, whose last used cell keeps
its old value. -/
def removeAt (files : Slice) (i : Nat) : Option Slice :=
  if i + 1 ≤ files.len ∧ files.len ≤ files.array.length then
    some ⟨files.array.take i ++ (files.array.drop (i + 1)).take (files.len - (i + 1))
            ++ files.array.drop (files.len - 1), files.len - 1⟩
  else none

/-- The loop `for i, file := range files` of the walk callback. The range expression
is evaluated once: the loop runs over the indices below the length at entry (the
first argument counts the rounds left) and reads cell `i` of the shared backing
array at each round. Returns the slice and whether the callback returns `io.EOF`;
`none` is a run-time panic. -/
def rangeLoop (name : String) : Nat → Nat → Slice → Option (Slice × Bool)
  | 0, _, files => some (files, false)
  | k + 1, i, files =>
    match files.array.get? i with
    | none => none
    | some file =>
      if name = file then
        match removeAt files i with
        | none => none
        | some files1 =>
          if files1.len = 0 then some (files1, true)
          else rangeLoop name k (i + 1) files1
      else rangeLoop name k (i + 1) files

/-- What `os.FileInfo` tells the callback. -/
structure FileInfo where
  Name : String
  IsDir : Bool
  deriving DecidableEq, Repr

/-- The function literal passed to `filepath.Walk` in `findPodDir`; the captured
variable `files` is passed in and out. -/
def walkFn (files : Slice) (info : Option FileInfo) (err : Option GoError) :
    Option (Slice × Option GoError) :=
  match err with
  | some e => some (files, some e)
  | none =>
    match info with
    | none => none
    | some info =>
      if !info.IsDir then
        match rangeLoop info.Name files.len 0 files with
        | none => none
        | some (files1, true) => some (files1, some .eof)
        | some (files1, false) => some (files1, none)
      else some (files, none)

/-- A directory tree as `filepath.Walk` meets it: a non-directory entry, a directory
with its entries in the order `readDirNames` lists them, a directory whose listing
fails, or an entry whose `Lstat` fails. -/
inductive Tree where
  | file (name : String)
  | dir (name : String) (children : List Tree)
  | dirUnreadable (name : String) (e : OsError)
  | lstatFails (name : String) (e : OsError)
  deriving Repr

mutual
/-- The library function `filepath.Walk` with the callback of `findPodDir`: every
entry is reported, a directory before its entries, and the first error returned
by the callback ends the walk and is returned. -/
def filepathWalk : Tree → Slice → Option (Slice × Option GoError)
  | .file name, files => walkFn files (some ⟨name, false⟩) none
  | .lstatFails _ e, files => walkFn files none (some (.os e))
  | .dirUnreadable name e, files => walkFn files (some ⟨name, true⟩) (some (.os e))
  | .dir name children, files =>
    match walkFn files (some ⟨name, true⟩) none with
    | none => none
    | some (files1, some err) => some (files1, some err)
    | some (files1, none) => walkEntries children files1
/-- The loop of `filepath.Walk` over the entries of a directory. -/
def walkEntries : List Tree → Slice → Option (Slice × Option GoError)
  | [], files => some (files, none)
  | t :: rest, files =>
    match filepathWalk t files with
    | none => none
    | some (files1, some err) => some (files1, some err)
    | some (files1, none) => walkEntries rest files1
end

/-- The marker names of `findPodDir`. -/
def markers : List String := ["Path of Diablo Launcher.exe", "Diablo II.exe", "Game.exe"]

/-- The rendering of a slice of strings by `fmt` (`[a b c]`). -/
def fmtStrings (l : List String) : String := "[" ++ " ".intercalate l ++ "]"

/-- The text `fmt.Sprintln("could not find files: ", files)`: the operands separated by
a space, then a newline. -/
def missingMessage (l : List String) : String :=
  "could not find files: " ++ " " ++ fmtStrings l ++ "\n"

/-- The source function `findPodDir` on a directory tree: the error returned (`none`
for `nil`), or `none` at the outer level if the program panics. -/
def findPodDir (root : Tree) : Option (Option GoError) :=
  match filepathWalk root ⟨markers, markers.length⟩ with
  | none => none
  | some (files, err) =>
    let err := if files.len > 0 then some (GoError.new (missingMessage files.toList)) else err
    if err = none ∨ err = some .eof then some none else some err

mutual
/-- The names of the non-directory entries of a tree, in walk order. -/
def Tree.fileNames : Tree → List String
  | .file name => [name]
  | .dir _ children => fileNamesOfEntries children
  | .dirUnreadable _ _ => []
  | .lstatFails _ _ => []
/-- The names of the non-directory entries of a list of trees. -/
def fileNamesOfEntries : List Tree → List String
  | [] => []
  | t :: rest => t.fileNames ++ fileNamesOfEntries rest
end

mutual
/-- True when the walk of the tree meets no filesystem error. -/
def Tree.noError : Tree → Bool
  | .file _ => true
  | .dir _ children => noErrorEntries children
  | .dirUnreadable _ _ => false
  | .lstatFails _ _ => false
/-- True when the walk of every tree of the list meets no filesystem error. -/
def noErrorEntries : List Tree → Bool
  | [] => true
  | t :: rest => t.noError && noErrorEntries rest
end

/-- A slice whose length does not exceed its capacity. -/
def Slice.WF (s : Slice) : Prop := s.len ≤ s.array.length

/-! ## The properties in the words of the specification -/

/-- The Outdated Set in the words of the specification: a record is outdated when a
file exists at its local path and the force flag is set or its declared checksum is
non-empty and differs from the checksum of the local content. -/
def outdatedBySpec (fs : FS) (podDir : String) (forceUpdate : Bool) (file : FileInf) : Bool :=
  match fs.lookup (pathJoin [podDir, file.Name]) with
  | some (.file content) =>
    forceUpdate || (decide (file.Crc ≠ "") && decide (getChecksum content ≠ file.Crc))
  | _ => false

/-- A link starts with the exact text `https://`. -/
def isSecureLink (url : String) : Prop := "https://".data <+: url.data

instance (url : String) : Decidable (isSecureLink url) := by
  unfold isSecureLink
  infer_instance

/-- The worker of a record in the words of the specification: none when no link is
secure, else one worker for the first secure link in link order. -/
def workerBySpec (downloadDir : String) (file : FileInf) : Option Worker :=
  (file.Link.find? (fun url => decide (isSecureLink url))).map
    (fun url => ⟨file.Name, downloadDir, url, file.Crc⟩)

/-! ## Facts about the checksum engine -/

theorem tableStep_lt (c : Nat) (h : c < 2 ^ 32) : tableStep c < 2 ^ 32 := by
  unfold tableStep
  have h2 : c / 2 < 2 ^ 32 := lt_of_le_of_lt (Nat.div_le_self _ _) h
  split
  · exact Nat.xor_lt_two_pow h2 (by unfold IEEE; norm_num)
  · exact h2

theorem tableEntry_lt (i : Nat) (h : i < 2 ^ 32) : tableEntry i < 2 ^ 32 := by
  unfold tableEntry
  exact tableStep_lt _ (tableStep_lt _ (tableStep_lt _ (tableStep_lt _
    (tableStep_lt _ (tableStep_lt _ (tableStep_lt _ (tableStep_lt _ h)))))))

theorem simpleUpdateLoop_lt (p : List Byte) (crc : Nat) (h : crc < 2 ^ 32) :
    simpleUpdateLoop crc p < 2 ^ 32 := by
  induction p generalizing crc with
  | nil => simpa [simpleUpdateLoop] using h
  | cons v p ih =>
    simp only [simpleUpdateLoop]
    apply ih
    have hb : crc % 256 < 2 ^ 32 := lt_of_lt_of_le (Nat.mod_lt _ (by norm_num)) (by norm_num)
    have hv : v.val < 2 ^ 32 := lt_of_lt_of_le v.isLt (by norm_num)
    have hx : (crc % 256) ^^^ v.val < 2 ^ 32 := Nat.xor_lt_two_pow hb hv
    exact Nat.xor_lt_two_pow (tableEntry_lt _ hx) (lt_of_le_of_lt (Nat.div_le_self _ _) h)

theorem ChecksumIEEE_lt (p : Content) : ChecksumIEEE p < 2 ^ 32 := by
  unfold ChecksumIEEE
  exact Nat.xor_lt_two_pow (simpleUpdateLoop_lt p _ (by decide)) (by norm_num)

theorem hexVal_udigit (d : Nat) (h : d < 16) : hexVal (udigit d) = some d := by
  interval_cases d <;> decide

theorem udigit_ne_zero (d : Nat) (h0 : 0 < d) (h : d < 16) : udigit d ≠ '0' := by
  interval_cases d <;> decide

theorem fmtXLoop_append (fuel u : Nat) (buf : List Char) :
    fmtXLoop fuel u buf = fmtXLoop fuel u [] ++ buf := by
  induction fuel generalizing u buf with
  | zero => simp [fmtXLoop]
  | succ n ih =>
    simp only [fmtXLoop]
    split
    · rw [ih (u / 16) (udigit (u % 16) :: buf), ih (u / 16) [udigit (u % 16)]]
      simp
    · simp

theorem parseHexFrom_append (xs ys : List Char) (acc : Nat) :
    parseHexFrom acc (xs ++ ys) = (parseHexFrom acc xs).bind (fun a => parseHexFrom a ys) := by
  induction xs generalizing acc with
  | nil => simp [parseHexFrom]
  | cons c cs ih =>
    simp only [List.cons_append, parseHexFrom]
    cases hexVal c with
    | none => simp
    | some d => simpa using ih _

theorem parseHexFrom_fmtXLoop (fuel u : Nat) (h : u ≤ fuel) :
    parseHexFrom 0 (fmtXLoop fuel u []) = some u := by
  induction fuel generalizing u with
  | zero =>
    have : u = 0 := by omega
    subst this
    decide
  | succ n ih =>
    simp only [fmtXLoop]
    split
    · rename_i h16
      rw [fmtXLoop_append, parseHexFrom_append, ih (u / 16) (by omega)]
      simp [parseHexFrom, hexVal_udigit (u % 16) (Nat.mod_lt _ (by norm_num))]
      omega
    · rename_i h16
      simp [parseHexFrom, hexVal_udigit u (by omega)]

theorem fmtXLoop_ne_nil (fuel u : Nat) (buf : List Char) : fmtXLoop fuel u buf ≠ [] := by
  induction fuel generalizing u buf with
  | zero => simp [fmtXLoop]
  | succ n ih =>
    simp only [fmtXLoop]
    split
    · exact ih _ _
    · simp

theorem fmtXLoop_length_le (k fuel u : Nat) (hk : u < 16 ^ (k + 1)) :
    (fmtXLoop fuel u []).length ≤ k + 1 := by
  induction k generalizing fuel u with
  | zero =>
    cases fuel with
    | zero => simp [fmtXLoop]
    | succ n =>
      simp only [fmtXLoop]
      have : ¬ u ≥ 16 := by omega
      simp [this]
  | succ k ih =>
    cases fuel with
    | zero => simp [fmtXLoop]
    | succ n =>
      simp only [fmtXLoop]
      split
      · rw [fmtXLoop_append]
        have := ih n (u / 16) (by
          rw [Nat.div_lt_iff_lt_mul (by norm_num)]
          calc u < 16 ^ (k + 1 + 1) := hk
            _ = 16 ^ (k + 1) * 16 := by ring)
        simp
        omega
      · simp

theorem fmtXLoop_all_hex (fuel u : Nat) (h : u ≤ fuel) :
    ∀ c ∈ fmtXLoop fuel u [], c ∈ udigits := by
  induction fuel generalizing u with
  | zero =>
    have : u = 0 := by omega
    subst this
    decide
  | succ n ih =>
    have hd : ∀ d, d < 16 → udigit d ∈ udigits := by
      intro d hd
      interval_cases d <;> decide
    simp only [fmtXLoop]
    split
    · rw [fmtXLoop_append]
      intro c hc
      rcases List.mem_append.1 hc with hc | hc
      · exact ih (u / 16) (by omega) c hc
      · simp at hc
        subst hc
        exact hd _ (Nat.mod_lt _ (by norm_num))
    · intro c hc
      simp at hc
      subst hc
      exact hd _ (by omega)

theorem fmtXLoop_head (fuel u : Nat) (h : u ≤ fuel) (h0 : 0 < u) :
    (fmtXLoop fuel u []).head? ≠ some '0' := by
  induction fuel generalizing u with
  | zero => omega
  | succ n ih =>
    simp only [fmtXLoop]
    split
    · rw [fmtXLoop_append]
      have hne := fmtXLoop_ne_nil n (u / 16) []
      have := ih (u / 16) (by omega) (by omega)
      cases hl : fmtXLoop n (u / 16) [] with
      | nil => exact absurd hl hne
      | cons a as =>
        rw [hl] at this
        simpa using this
    · simp
      exact udigit_ne_zero u h0 (by omega)


/-- C3: for every content, `getChecksum` is the upper-case base-16 numeral of the
CRC-32 (IEEE) of all its bytes: reading the result back as a hexadecimal number gives
`ChecksumIEEE`, every character is one of `0-9A-F`, and the check value of
`"123456789"` is `"CBF43926"`. -/
theorem getChecksum_is_upper_hex_of_crc32 (C : Content) :
    parseHex (getChecksum C) = some (ChecksumIEEE C)
    ∧ (∀ c ∈ (getChecksum C).data, c ∈ "0123456789ABCDEF".toList)
    ∧ getChecksum (asciiBytes "123456789") = "CBF43926" := by
  refine ⟨?_, ?_, ?_⟩
  · unfold parseHex getChecksum fmtX
    simp only [fmtXLoop_ne_nil, if_false]
    exact parseHexFrom_fmtXLoop _ _ (le_refl _)
  · intro c hc
    exact fmtXLoop_all_hex _ _ (le_refl _) c hc
  · set_option maxRecDepth 100000 in decide

/-- C10: `getChecksum` never pads with zeros: the result has 1 to 8 characters, starts
with `0` only when it is exactly `"0"`, the empty content gives `"0"`, and a content
whose CRC-32 is below `0x10000000` gives fewer than 8 characters, hence a string
different from the 8-digit zero-padded rendering of the same value. -/
theorem getChecksum_not_zero_padded (C : Content) :
    1 ≤ (getChecksum C).length ∧ (getChecksum C).length ≤ 8
    ∧ ((getChecksum C).data.head? = some '0' → getChecksum C = "0")
    ∧ getChecksum [] = "0"
    ∧ (ChecksumIEEE C < 0x10000000 →
        (getChecksum C).length < 8 ∧ (fmt08X (ChecksumIEEE C)).length = 8
        ∧ getChecksum C ≠ fmt08X (ChecksumIEEE C)) := by
  have hlt := ChecksumIEEE_lt C
  have hlen : (getChecksum C).length ≤ 8 :=
    fmtXLoop_length_le 7 _ _ (lt_of_lt_of_le hlt (by norm_num))
  refine ⟨?_, hlen, ?_, by decide, ?_⟩
  · have := fmtXLoop_ne_nil (ChecksumIEEE C) (ChecksumIEEE C) []
    show 1 ≤ (fmtXLoop _ _ []).length
    exact List.length_pos.2 this
  · intro hh
    by_cases h0 : ChecksumIEEE C = 0
    · unfold getChecksum
      rw [h0]
      decide
    · exact absurd hh (fmtXLoop_head _ _ (le_refl _) (Nat.pos_of_ne_zero h0))
  · intro hsmall
    have h7 : (getChecksum C).length ≤ 7 :=
      fmtXLoop_length_le 6 _ _ (lt_of_lt_of_le hsmall (by norm_num))
    have h8 : (fmt08X (ChecksumIEEE C)).length = 8 := by
      have h7' : (fmtX (ChecksumIEEE C)).data.length ≤ 7 := h7
      unfold fmt08X
      simp only [String.length, List.length_append, List.length_replicate]
      omega
    refine ⟨by omega, h8, ?_⟩
    intro heq
    rw [← heq] at h8
    omega

/-- C10 at the content `"c"`, whose CRC-32 is `0x06B9DF6F`. -/
theorem getChecksum_not_zero_padded_witness :
    ChecksumIEEE (asciiBytes "c") < 0x10000000
    ∧ getChecksum (asciiBytes "c") = "6B9DF6F"
    ∧ fmt08X (ChecksumIEEE (asciiBytes "c")) = "06B9DF6F"
    ∧ getChecksum (asciiBytes "c") ≠ fmt08X (ChecksumIEEE (asciiBytes "c")) :=
  ⟨by decide, by decide, by decide,
    ((getChecksum_not_zero_padded (asciiBytes "c")).2.2.2.2 (by decide)).2.2⟩


/-! ## Facts about the directory validator -/

theorem rangeLoop_no_match (name : String) (k : Nat) :
    ∀ (i : Nat) (A B C : List String) (len : Nat), A.length = i → B.length = k →
      name ∉ B →
      rangeLoop name k i ⟨A ++ B ++ C, len⟩ = some (⟨A ++ B ++ C, len⟩, false) := by
  induction k with
  | zero => intro i A B C len _ _ _; rfl
  | succ k ih =>
    intro i A B C len hA hB hn
    cases B with
    | nil => simp at hB
    | cons b B' =>
      have hget : (A ++ b :: B' ++ C).get? i = some b := by
        subst hA
        rw [List.append_assoc, List.get?_eq_getElem?, List.getElem?_append_right (le_refl _)]
        simp
      simp only [rangeLoop, hget]
      have hne : name ≠ b := by
        intro h; apply hn; simp [h]
      simp only [hne, if_false]
      have hre : A ++ b :: B' ++ C = (A ++ [b]) ++ B' ++ C := by simp
      rw [hre]
      apply ih (i + 1) (A ++ [b]) B' C len
      · simp [hA]
      · simpa using hB
      · intro h; apply hn; simp [h]

theorem removeAt_split (P S' R : List String) (s : String) :
    removeAt ⟨P ++ s :: S' ++ R, P.length + (S'.length + 1)⟩ P.length
      = some ⟨P ++ S' ++ (List.drop S'.length (s :: S') ++ R), P.length + S'.length⟩ := by
  unfold removeAt
  have hcond : P.length + 1 ≤ P.length + (S'.length + 1)
      ∧ P.length + (S'.length + 1) ≤ (P ++ s :: S' ++ R).length := by
    constructor
    · omega
    · simp only [List.length_append, List.length_cons]
      omega
  simp only [hcond, and_self, if_true]
  have h1 : List.take P.length (P ++ s :: S' ++ R) = P := by
    rw [List.append_assoc]
    exact List.take_left' rfl
  have h2 : List.drop (P.length + 1) (P ++ s :: S' ++ R) = S' ++ R := by
    have : P ++ s :: S' ++ R = (P ++ [s]) ++ (S' ++ R) := by simp
    rw [this]
    exact List.drop_left' (by simp)
  have h3 : P.length + (S'.length + 1) - (P.length + 1) = S'.length := by omega
  have h4 : List.take S'.length (S' ++ R) = S' := List.take_left' rfl
  have h5 : List.drop (P.length + (S'.length + 1) - 1) (P ++ s :: S' ++ R)
      = List.drop S'.length (s :: S') ++ R := by
    have e1 : P.length + (S'.length + 1) - 1 = P.length + S'.length := by omega
    rw [e1, List.append_assoc, ← List.drop_drop, List.drop_left' rfl]
    exact List.drop_append_of_le_length (by simp)
  have h6 : P.length + (S'.length + 1) - 1 = P.length + S'.length := by omega
  rw [h1, h2, h3, h4, h5, h6]

theorem rangeLoop_spec (name : String) (k : Nat) :
    ∀ (i : Nat) (P S R : List String), P.length = i → S.length = k → name ∉ P →
      (P ++ S).Nodup →
      ∃ files1 b, rangeLoop name k i ⟨P ++ S ++ R, i + k⟩ = some (files1, b)
        ∧ files1.toList = (P ++ S).filter (fun m => decide (m ≠ name))
        ∧ files1.array.length = (P ++ S ++ R).length
        ∧ files1.len ≤ i + k
        ∧ (b = true → files1.len = 0)
        ∧ (b = false → 0 < i + k → 0 < files1.len) := by
  induction k with
  | zero =>
    intro i P S R hP hS hn _
    have hS0 : S = [] := List.length_eq_zero.1 hS
    subst hS0
    refine ⟨_, false, rfl, ?_, rfl, le_refl _, by simp, fun _ h => h⟩
    subst hP
    simp only [Slice.toList, List.append_nil, Nat.add_zero]
    rw [List.take_left' rfl]
    symm
    rw [List.filter_eq_self]
    intro a ha
    simp only [decide_eq_true_eq]
    intro h
    exact hn (h ▸ ha)
  | succ k ih =>
    intro i P S R hP hS hn hnd
    cases S with
    | nil => simp at hS
    | cons s S' =>
      have hS' : S'.length = k := by simpa using hS
      have hget : (P ++ s :: S' ++ R).get? i = some s := by
        subst hP
        rw [List.append_assoc, List.get?_eq_getElem?, List.getElem?_append_right (le_refl _)]
        simp
      simp only [rangeLoop, hget]
      have hsP : s ∉ P := by
        intro h
        have := List.nodup_append.1 hnd
        exact this.2.2 h (by simp)
      have hsS : s ∉ S' := by
        have := (List.nodup_append.1 hnd).2.1
        exact (List.nodup_cons.1 this).1
      by_cases hname : name = s
      · subst hname
        simp only [if_true]
        have hrm := removeAt_split P S' R name
        rw [hP, hS'] at hrm
        rw [hrm]
        have htl : (Slice.toList ⟨P ++ S' ++ (List.drop k (name :: S') ++ R), i + k⟩)
            = (P ++ name :: S').filter (fun m => decide (m ≠ name)) := by
          simp only [Slice.toList]
          rw [List.append_assoc P S', ← List.append_assoc, List.take_left' (by simp [hP, hS'])]
          rw [List.filter_append, List.filter_cons]
          simp only [ne_eq, not_true_eq_false, decide_False, Bool.false_eq_true, if_false]
          rw [List.filter_eq_self.2, List.filter_eq_self.2]
          · intro a ha
            simp only [decide_eq_true_eq]
            intro h
            exact hsS (h ▸ ha)
          · intro a ha
            simp only [decide_eq_true_eq]
            intro h
            exact hsP (h ▸ ha)
        have hlen : (P ++ S' ++ (List.drop k (name :: S') ++ R)).length
            = (P ++ name :: S' ++ R).length := by
          simp [hS']
          omega
        by_cases h0 : i + k = 0
        · simp only [h0, if_true]
          refine ⟨_, true, rfl, ?_, ?_, by dsimp only; omega, fun _ => rfl, by simp⟩
          · rw [← h0]; exact htl
          · rw [← hlen]
        · simp only [h0, if_false]
          cases S' with
          | nil =>
            have hk : k = 0 := by simpa using hS'.symm
            subst hk
            refine ⟨_, false, rfl, htl, hlen, by dsimp only; omega, by simp,
              fun _ _ => by dsimp only; omega⟩
          | cons q S'' =>
            have hB : (S'' ++ List.drop k (name :: q :: S'')).length = k := by
              simp at hS'
              simp
              omega
            have hnB : name ∉ S'' ++ List.drop k (name :: q :: S'') := by
              intro h
              rcases List.mem_append.1 h with h | h
              · exact hsS (List.mem_cons_of_mem _ h)
              · have hk : k = S''.length + 1 := by simpa using hS'.symm
                rw [hk] at h
                simp only [List.drop_succ_cons] at h
                exact hsS (List.mem_of_mem_drop h)
            have hre : P ++ (q :: S'') ++ (List.drop k (name :: q :: S'') ++ R)
                = (P ++ [q]) ++ (S'' ++ List.drop k (name :: q :: S'')) ++ R := by simp
            rw [hre]
            rw [rangeLoop_no_match name k (i + 1) (P ++ [q]) _ R (i + k) (by simp [hP]) hB hnB]
            rw [← hre]
            refine ⟨_, false, rfl, htl, hlen, by dsimp only; omega, by simp,
              fun _ _ => by dsimp only; omega⟩
      · simp only [hname, if_false]
        have hre : P ++ s :: S' ++ R = (P ++ [s]) ++ S' ++ R := by simp
        have hik : i + (k + 1) = (i + 1) + k := by omega
        rw [hre, hik]
        have hnd' : ((P ++ [s]) ++ S').Nodup := by simpa using hnd
        have hn' : name ∉ P ++ [s] := by
          intro h
          rcases List.mem_append.1 h with h | h
          · exact hn h
          · simp at h
            exact hname h
        obtain ⟨f1, b, h1, h2, h3, h4, h5, h6⟩ :=
          ih (i + 1) (P ++ [s]) S' R (by simp [hP]) hS' hn' hnd'
        refine ⟨f1, b, h1, ?_, h3, h4, h5, fun hb _ => h6 hb (by omega)⟩
        rw [h2]
        simp

theorem Slice.toList_length (s : Slice) (h : s.WF) : s.toList.length = s.len := by
  unfold Slice.toList
  unfold Slice.WF at h
  simp
  omega

theorem Slice.toList_eq_nil (s : Slice) (h : s.WF) (h0 : s.len = 0) : s.toList = [] := by
  apply List.length_eq_zero.1
  rw [Slice.toList_length s h, h0]

theorem walkFn_file (name : String) (files : Slice) (hwf : files.WF)
    (hnd : files.toList.Nodup) :
    ∃ files1 err, walkFn files (some ⟨name, false⟩) none = some (files1, err)
      ∧ files1.WF
      ∧ files1.toList = files.toList.filter (fun m => decide (m ≠ name))
      ∧ (err = none ∨ err = some .eof)
      ∧ (err = some .eof → files1.len = 0)
      ∧ (err ≠ some .eof → 0 < files.len → 0 < files1.len) := by
  obtain ⟨arr, n⟩ := files
  have hwf' : n ≤ arr.length := hwf
  have hnd' : ([] ++ arr.take n).Nodup := by simpa [Slice.toList] using hnd
  obtain ⟨f1, b, h1, h2, h3, h4, h5, h6⟩ :=
    rangeLoop_spec name n 0 [] (arr.take n) (arr.drop n) rfl
      (by simp; omega) (by simp) hnd'
  simp only [List.nil_append, List.take_append_drop, Nat.zero_add] at h1 h2 h3 h4 h6
  have hwf1 : f1.WF := by
    unfold Slice.WF
    omega
  cases b with
  | true =>
    refine ⟨f1, some .eof, ?_, hwf1, ?_, Or.inr rfl, fun _ => h5 rfl, fun h => absurd rfl h⟩
    · simp [walkFn, h1]
    · simpa [Slice.toList] using h2
  | false =>
    refine ⟨f1, none, ?_, hwf1, ?_, Or.inl rfl, fun h => by simp at h, fun _ h => h6 rfl h⟩
    · simp [walkFn, h1]
    · simpa [Slice.toList] using h2

theorem filter_eq_nil_of_imp {α : Type} (p q : α → Bool) (l : List α)
    (h : l.filter p = []) (hpq : ∀ x, q x = true → p x = true) : l.filter q = [] := by
  rw [List.filter_eq_nil_iff] at h ⊢
  intro a ha hq
  exact h a ha (hpq a hq)

mutual
theorem filepathWalk_spec : ∀ (t : Tree) (files : Slice), files.WF → files.toList.Nodup →
    ∃ files1 err, filepathWalk t files = some (files1, err)
      ∧ files1.WF ∧ files1.toList.Nodup
      ∧ (err = none → t.noError = true
          ∧ files1.toList = files.toList.filter (fun m => decide (m ∉ t.fileNames)))
      ∧ (err = some .eof → files1.len = 0
          ∧ files.toList.filter (fun m => decide (m ∉ t.fileNames)) = [])
      ∧ (err ≠ some .eof → 0 < files.len → 0 < files1.len)
      ∧ (err = none ∨ err = some .eof ∨ (t.noError = false ∧ ∃ e, err = some (.os e)))
  | .file name, files, hwf, hnd => by
    obtain ⟨f1, err, h1, h2, h3, h4, h5, h6⟩ := walkFn_file name files hwf hnd
    have hnames : (fun m => decide (m ∉ (Tree.file name).fileNames))
        = (fun m => decide (m ≠ name)) := by
      funext m
      simp [Tree.fileNames]
    refine ⟨f1, err, ?_, h2, ?_, fun _ => ⟨rfl, ?_⟩, fun he => ⟨h5 he, ?_⟩, h6, ?_⟩
    · simpa [filepathWalk] using h1
    · rw [h3]; exact hnd.filter _
    · rw [h3, hnames]
    · rw [hnames, ← h3]
      exact Slice.toList_eq_nil f1 h2 (h5 he)
    · rcases h4 with h | h
      · exact Or.inl h
      · exact Or.inr (Or.inl h)
  | .lstatFails name e, files, hwf, hnd => by
    refine ⟨files, some (.os e), ?_, hwf, hnd, fun h => by simp at h, fun h => by simp at h,
      fun _ h => h, Or.inr (Or.inr ⟨rfl, e, rfl⟩)⟩
    simp [filepathWalk, walkFn]
  | .dirUnreadable name e, files, hwf, hnd => by
    refine ⟨files, some (.os e), ?_, hwf, hnd, fun h => by simp at h, fun h => by simp at h,
      fun _ h => h, Or.inr (Or.inr ⟨rfl, e, rfl⟩)⟩
    simp [filepathWalk, walkFn]
  | .dir name children, files, hwf, hnd => by
    obtain ⟨f1, err, h1, h2, h3, h4, h5, h6, h7⟩ := walkEntries_spec children files hwf hnd
    refine ⟨f1, err, ?_, h2, h3, ?_, ?_, h6, ?_⟩
    · simpa [filepathWalk, walkFn] using h1
    · intro he
      simpa [Tree.noError, Tree.fileNames] using h4 he
    · intro he
      simpa [Tree.fileNames] using h5 he
    · simpa [Tree.noError] using h7
theorem walkEntries_spec : ∀ (ts : List Tree) (files : Slice), files.WF →
    files.toList.Nodup →
    ∃ files1 err, walkEntries ts files = some (files1, err)
      ∧ files1.WF ∧ files1.toList.Nodup
      ∧ (err = none → noErrorEntries ts = true
          ∧ files1.toList = files.toList.filter (fun m => decide (m ∉ fileNamesOfEntries ts)))
      ∧ (err = some .eof → files1.len = 0
          ∧ files.toList.filter (fun m => decide (m ∉ fileNamesOfEntries ts)) = [])
      ∧ (err ≠ some .eof → 0 < files.len → 0 < files1.len)
      ∧ (err = none ∨ err = some .eof ∨ (noErrorEntries ts = false ∧ ∃ e, err = some (.os e)))
  | [], files, hwf, hnd => by
    refine ⟨files, none, rfl, hwf, hnd, fun _ => ⟨rfl, ?_⟩, fun h => by simp at h,
      fun _ h => h, Or.inl rfl⟩
    simp [fileNamesOfEntries]
  | t :: rest, files, hwf, hnd => by
    obtain ⟨f1, e1, h1, h2, h3, h4, h5, h6, h7⟩ := filepathWalk_spec t files hwf hnd
    cases e1 with
    | some err =>
      refine ⟨f1, some err, ?_, h2, h3, fun h => by simp at h, ?_, h6, ?_⟩
      · simp [walkEntries, h1]
      · intro he
        obtain ⟨hlen, hnil⟩ := h5 he
        refine ⟨hlen, ?_⟩
        apply filter_eq_nil_of_imp _ _ _ hnil
        intro x hx
        simp only [fileNamesOfEntries, List.mem_append, not_or, decide_eq_true_eq] at hx ⊢
        exact hx.1
      · rcases h7 with h | h | ⟨hne, e, he⟩
        · simp at h
        · exact Or.inr (Or.inl h)
        · exact Or.inr (Or.inr ⟨by simp [noErrorEntries, hne], e, he⟩)
    | none =>
      obtain ⟨hne1, htl1⟩ := h4 rfl
      obtain ⟨f2, e2, g1, g2, g3, g4, g5, g6, g7⟩ := walkEntries_spec rest f1 h2 h3
      have hfilter : (files.toList.filter (fun m => decide (m ∉ t.fileNames))).filter
            (fun m => decide (m ∉ fileNamesOfEntries rest))
          = files.toList.filter (fun m => decide (m ∉ fileNamesOfEntries (t :: rest))) := by
        rw [List.filter_filter]
        congr 1
        funext m
        simp [fileNamesOfEntries, and_comm]
      refine ⟨f2, e2, ?_, g2, g3, ?_, ?_, ?_, ?_⟩
      · simp [walkEntries, h1, g1]
      · intro he
        obtain ⟨hne2, htl2⟩ := g4 he
        refine ⟨by simp [noErrorEntries, hne1, hne2], ?_⟩
        rw [htl2, htl1, hfilter]
      · intro he
        obtain ⟨hlen, hnil⟩ := g5 he
        refine ⟨hlen, ?_⟩
        rw [← hfilter, ← htl1]
        exact hnil
      · intro hne hpos
        exact g6 hne (h6 (by simp) hpos)
      · rcases g7 with h | h | ⟨hne, e, he⟩
        · exact Or.inl h
        · exact Or.inr (Or.inl h)
        · exact Or.inr (Or.inr ⟨by simp [noErrorEntries, hne], e, he⟩)
end

/-- C2: on a tree whose walk reports no filesystem error, `findPodDir` returns `nil`
exactly when each of the three marker names is the name of some non-directory entry
of the tree (at any depth, in any order, repeated or not); otherwise it returns the
error that lists exactly the markers that were not found, each once and in their
original order. The slice left by the walk holds exactly those markers, and the
removal inside the `range` loop never panics. -/
theorem findPodDir_markers (t : Tree)
    (h : ∀ files e, filepathWalk t ⟨markers, markers.length⟩ ≠ some (files, some (.os e))) :
    (findPodDir t = some none ↔ ∀ m ∈ markers, m ∈ t.fileNames)
    ∧ (¬ (∀ m ∈ markers, m ∈ t.fileNames) →
        findPodDir t = some (some (GoError.new
          (missingMessage (markers.filter (fun m => decide (m ∉ t.fileNames)))))))
    ∧ findPodDir t ≠ none
    ∧ (∃ files err, filepathWalk t ⟨markers, markers.length⟩ = some (files, err)
        ∧ files.toList = markers.filter (fun m => decide (m ∉ t.fileNames))) := by
  obtain ⟨f1, err, h1, h2, _, h4, h5, _, h7⟩ :=
    filepathWalk_spec t ⟨markers, markers.length⟩ (le_refl _) (by decide)
  have hinit : (Slice.toList ⟨markers, markers.length⟩) = markers := by
    simp [Slice.toList]
  rw [hinit] at h4 h5
  have hor : err = none ∨ err = some .eof := by
    rcases h7 with hn | he | ⟨_, e, he⟩
    · exact Or.inl hn
    · exact Or.inr he
    · rw [he] at h1
      exact absurd h1 (h f1 e)
  have htl : f1.toList = markers.filter (fun m => decide (m ∉ t.fileNames)) := by
    rcases hor with hn | he
    · exact (h4 hn).2
    · obtain ⟨hlen, hnil⟩ := h5 he
      rw [hnil]
      exact Slice.toList_eq_nil f1 h2 hlen
  have hlen : f1.len = (markers.filter (fun m => decide (m ∉ t.fileNames))).length := by
    rw [← htl, Slice.toList_length f1 h2]
  have hall : (∀ m ∈ markers, m ∈ t.fileNames)
      ↔ markers.filter (fun m => decide (m ∉ t.fileNames)) = [] := by
    rw [List.filter_eq_nil_iff]
    constructor
    · intro hm a ha
      simpa using hm a ha
    · intro hm a ha
      simpa using hm a ha
  by_cases hnil : markers.filter (fun m => decide (m ∉ t.fileNames)) = []
  · have h0 : f1.len = 0 := by rw [hlen, hnil]; rfl
    have hres : findPodDir t = some none := by
      unfold findPodDir
      rw [h1]
      simp only [h0, lt_irrefl, if_false]
      rcases hor with hn | he
      · simp [hn]
      · simp [he]
    refine ⟨⟨fun _ => hall.2 hnil, fun _ => hres⟩, fun hc => absurd (hall.2 hnil) hc, ?_,
      f1, err, h1, htl⟩
    rw [hres]
    simp
  · have hpos : 0 < f1.len := by
      rw [hlen]
      exact List.length_pos.2 hnil
    have hres : findPodDir t = some (some (GoError.new
        (missingMessage (markers.filter (fun m => decide (m ∉ t.fileNames)))))) := by
      unfold findPodDir
      rw [h1]
      simp only [hpos, if_true, htl]
      simp
    refine ⟨⟨fun hc => ?_, fun hc => absurd (hall.1 hc) hnil⟩, fun _ => hres, ?_,
      f1, err, h1, htl⟩
    · rw [hres] at hc
      simp at hc
    · rw [hres]
      simp

/-- C2 on a tree that holds two of the markers, one of them twice and below a
sub-directory: the error lists the launcher alone. -/
theorem findPodDir_markers_witness :
    filepathWalk (.dir "pod" [.file "Diablo II.exe",
        .dir "sub" [.file "Game.exe", .file "Game.exe"], .file "readme.txt"])
        ⟨markers, markers.length⟩
      = some (⟨["Path of Diablo Launcher.exe", "Game.exe", "Game.exe"], 1⟩, none)
    ∧ findPodDir (.dir "pod" [.file "Diablo II.exe",
        .dir "sub" [.file "Game.exe", .file "Game.exe"], .file "readme.txt"])
      = some (some (GoError.new "could not find files:  [Path of Diablo Launcher.exe]\n")) :=
  ⟨by decide,
    ((findPodDir_markers (.dir "pod" [.file "Diablo II.exe",
        .dir "sub" [.file "Game.exe", .file "Game.exe"], .file "readme.txt"])
      (fun files e hc => by
        have hw : filepathWalk (.dir "pod" [.file "Diablo II.exe",
            .dir "sub" [.file "Game.exe", .file "Game.exe"], .file "readme.txt"])
            ⟨markers, markers.length⟩
          = some (⟨["Path of Diablo Launcher.exe", "Game.exe", "Game.exe"], 1⟩, none) := by
          decide
        rw [hw] at hc
        simp at hc)).2.1 (by decide)).trans (by decide)⟩

/-- C7, as the code behaves: whenever the walk ends with a filesystem error, some marker
is still unmatched, so `findPodDir` replaces that error by the missing-markers error;
the filesystem error itself is never returned. -/
theorem findPodDir_walk_error_replaced (t : Tree) (files : Slice) (e : OsError)
    (h : filepathWalk t ⟨markers, markers.length⟩ = some (files, some (.os e))) :
    files.toList ≠ []
    ∧ findPodDir t = some (some (GoError.new (missingMessage files.toList)))
    ∧ findPodDir t ≠ some (some (GoError.os e)) := by
  obtain ⟨f1, err, h1, h2, _, _, _, h6, _⟩ :=
    filepathWalk_spec t ⟨markers, markers.length⟩ (le_refl _) (by decide)
  rw [h1] at h
  simp only [Option.some.injEq, Prod.mk.injEq] at h
  obtain ⟨hf, he⟩ := h
  subst hf
  have hpos : 0 < f1.len := h6 (by rw [he]; simp) (by decide)
  have hres : findPodDir t = some (some (GoError.new (missingMessage f1.toList))) := by
    unfold findPodDir
    rw [h1]
    simp only [hpos, if_true]
    simp
  refine ⟨?_, hres, ?_⟩
  · intro hnil
    have := Slice.toList_length f1 h2
    rw [hnil] at this
    simp at this
    omega
  · rw [hres]
    simp

/-- C7 at a root directory whose listing is refused: the walk reports the permission
error, and `findPodDir` returns the missing-markers error with all three names. -/
theorem findPodDir_walk_error_replaced_witness :
    filepathWalk (.dirUnreadable "pod" .permission) ⟨markers, markers.length⟩
      = some (⟨markers, 3⟩, some (.os .permission))
    ∧ findPodDir (.dirUnreadable "pod" .permission)
      = some (some (GoError.new
          "could not find files:  [Path of Diablo Launcher.exe Diablo II.exe Game.exe]\n"))
    ∧ findPodDir (.dirUnreadable "pod" .permission) ≠ some (some (GoError.os .permission)) :=
  ⟨by decide,
    (findPodDir_walk_error_replaced (.dirUnreadable "pod" .permission) ⟨markers, 3⟩
      .permission (by decide)).2.1.trans (by decide),
    (findPodDir_walk_error_replaced (.dirUnreadable "pod" .permission) ⟨markers, 3⟩
      .permission (by decide)).2.2⟩

/-! ## Facts about the planner and the spawn loop -/

theorem planLoop_eq_filter (fs : FS) (podDir : String) (forceUpdate : Bool) :
    ∀ (l acc : List FileInf),
      (∀ f ∈ l, fs.lookup (pathJoin [podDir, f.Name]) ≠ some .dir) →
      planLoop fs podDir forceUpdate l acc
        = .done (acc ++ l.filter (outdatedBySpec fs podDir forceUpdate)) fs := by
  intro l
  induction l with
  | nil => intro acc _; simp [planLoop]
  | cons f rest ih =>
    intro acc hread
    have hrest : ∀ g ∈ rest, fs.lookup (pathJoin [podDir, g.Name]) ≠ some .dir :=
      fun g hg => hread g (List.mem_cons_of_mem _ hg)
    have hf := hread f (List.mem_cons_self _ _)
    cases hl : fs.lookup (pathJoin [podDir, f.Name]) with
    | none =>
      simp only [planLoop, osStat, hl, List.filter_cons, outdatedBySpec]
      simpa using ih acc hrest
    | some n =>
      cases n with
      | dir => exact absurd hl hf
      | file content =>
        simp only [planLoop, osStat, readFile, hl, List.filter_cons, outdatedBySpec]
        split
        · rw [ih _ hrest]
          simp
        · exact ih acc hrest

/-- C1: when every local path of a manifest record that exists is a readable file, the
planning loop ends without a fatal error and the Outdated Set is exactly the
manifest records, in manifest order and with duplicates kept, whose local file
exists and for which the force flag is set or the declared checksum is non-empty and
differs from the checksum of the local content. Hence: without the force flag a record
with an empty checksum is never in the set; with the force flag every record whose
local file exists is in it; a record whose local file is absent is never in it. -/
theorem planOutdated_eq_spec (fs : FS) (podDir : String) (forceUpdate : Bool)
    (files : Filelist)
    (hread : ∀ f ∈ files.File, fs.lookup (pathJoin [podDir, f.Name]) ≠ some .dir) :
    planOutdated fs podDir forceUpdate files
      = .done (files.File.filter (outdatedBySpec fs podDir forceUpdate)) fs
    ∧ (forceUpdate = false → ∀ f : FileInf, f.Crc = "" →
        f ∉ files.File.filter (outdatedBySpec fs podDir forceUpdate))
    ∧ (forceUpdate = true → ∀ f ∈ files.File,
        (fs.lookup (pathJoin [podDir, f.Name])).isSome = true →
        f ∈ files.File.filter (outdatedBySpec fs podDir forceUpdate))
    ∧ (∀ f : FileInf, fs.lookup (pathJoin [podDir, f.Name]) = none →
        f ∉ files.File.filter (outdatedBySpec fs podDir forceUpdate)) := by
  refine ⟨?_, ?_, ?_, ?_⟩
  · unfold planOutdated
    rw [planLoop_eq_filter fs podDir forceUpdate files.File [] hread]
    simp
  · intro hforce f hcrc hmem
    have := (List.mem_filter.1 hmem).2
    unfold outdatedBySpec at this
    subst hforce
    split at this <;> simp [hcrc] at this
  · intro hforce f hf hex
    apply List.mem_filter.2
    refine ⟨hf, ?_⟩
    unfold outdatedBySpec
    subst hforce
    cases hl : fs.lookup (pathJoin [podDir, f.Name]) with
    | none => simp [hl] at hex
    | some n =>
      cases n with
      | dir => exact absurd hl (hread f hf)
      | file content => simp
  · intro f hnone hmem
    have := (List.mem_filter.1 hmem).2
    unfold outdatedBySpec at this
    rw [hnone] at this
    simp at this

/-- C1 on a manifest of four records, one of them twice: a stale file, the same
record again, a record with no declared checksum, and a record with no local file. -/
theorem planOutdated_eq_spec_witness :
    planOutdated
        [("/pod", .dir), ("/pod/a.txt", .file (asciiBytes "old")),
          ("/pod/b.txt", .file (asciiBytes "c"))]
        "/pod" false
        ⟨"", [⟨"", "a.txt", "1A2B3C4D", "", "", []⟩, ⟨"", "b.txt", "", "", "", []⟩,
              ⟨"", "a.txt", "1A2B3C4D", "", "", []⟩, ⟨"", "new.txt", "FF", "", "", []⟩]⟩
      = .done [⟨"", "a.txt", "1A2B3C4D", "", "", []⟩, ⟨"", "a.txt", "1A2B3C4D", "", "", []⟩]
          [("/pod", .dir), ("/pod/a.txt", .file (asciiBytes "old")),
            ("/pod/b.txt", .file (asciiBytes "c"))] :=
  (planOutdated_eq_spec
      [("/pod", .dir), ("/pod/a.txt", .file (asciiBytes "old")),
        ("/pod/b.txt", .file (asciiBytes "c"))]
      "/pod" false
      ⟨"", [⟨"", "a.txt", "1A2B3C4D", "", "", []⟩, ⟨"", "b.txt", "", "", "", []⟩,
            ⟨"", "a.txt", "1A2B3C4D", "", "", []⟩, ⟨"", "new.txt", "FF", "", "", []⟩]⟩
      (by decide)).1.trans (by decide)

theorem stringsIndexFrom_ge (substr : List Char) :
    ∀ (s : List Char) (i : Nat), stringsIndexFrom substr s i = -1
      ∨ (i : Int) ≤ stringsIndexFrom substr s i := by
  intro s
  induction s with
  | nil =>
    intro i
    simp only [stringsIndexFrom]
    split
    · exact Or.inr (le_refl _)
    · exact Or.inl rfl
  | cons c cs ih =>
    intro i
    simp only [stringsIndexFrom]
    split
    · exact Or.inr (le_refl _)
    · rcases ih (i + 1) with h | h
      · exact Or.inl h
      · right
        have : (i : Int) ≤ ((i + 1 : Nat) : Int) := by omega
        exact le_trans this h

theorem stringsIndex_eq_zero_iff (s substr : String) :
    stringsIndex s substr = 0 ↔ substr.data <+: s.data := by
  unfold stringsIndex
  cases hs : s.data with
  | nil =>
    simp only [stringsIndexFrom]
    constructor
    · intro h
      split at h
      · rename_i h0
        rw [h0]
      · simp at h
    · intro h
      have : substr.data = [] := List.eq_nil_of_prefix_nil h
      simp [this]
  | cons c cs =>
    simp only [stringsIndexFrom]
    constructor
    · intro h
      split at h
      · rename_i hp
        exact List.isPrefixOf_iff_prefix.1 hp
      · rcases stringsIndexFrom_ge substr.data cs (0 + 1) with h1 | h1
        · rw [h1] at h
          simp at h
        · rw [h] at h1
          simp at h1
    · intro h
      have hp : substr.data.isPrefixOf (c :: cs) = true := List.isPrefixOf_iff_prefix.2 h
      simp [hp]

theorem firstSecureLink_eq_find (links : List String) :
    firstSecureLink links = links.find? (fun url => decide (isSecureLink url)) := by
  induction links with
  | nil => rfl
  | cons url rest ih =>
    simp only [firstSecureLink, List.find?_cons]
    by_cases h : stringsIndex url "https://" = 0
    · have hs : isSecureLink url := (stringsIndex_eq_zero_iff url "https://").1 h
      simp [h, hs]
    · have hs : ¬ isSecureLink url := fun hc => h ((stringsIndex_eq_zero_iff url "https://").2 hc)
      simp [h, hs, ih]

/-- C6: the spawn loop starts, for each record of the Outdated Set in order, at most one
worker: exactly one, with the first link in link order that starts with `https://`,
when the record has such a link (whatever follows that link), and none when it has no
such link, after which the loop goes on with the next record and the workers, if any,
run as usual (with that record alone, the wait ends at once without an error). No
worker comes from anything but a record of the Outdated Set. -/
theorem spawnLoop_first_secure_link (downloadDir : String) (outdatedFiles : List FileInf) :
    spawnLoop downloadDir outdatedFiles = outdatedFiles.filterMap (workerBySpec downloadDir)
    ∧ (spawnLoop downloadDir outdatedFiles).length ≤ outdatedFiles.length
    ∧ (∀ w ∈ spawnLoop downloadDir outdatedFiles, ∃ f ∈ outdatedFiles,
        workerBySpec downloadDir f = some w)
    ∧ (∀ (f : FileInf) (before after : List String) (url : String),
        f.Link = before ++ url :: after → (∀ v ∈ before, ¬ isSecureLink v) →
        isSecureLink url →
        spawnLoop downloadDir [f] = [⟨f.Name, downloadDir, url, f.Crc⟩])
    ∧ (∀ (f : FileInf), (∀ v ∈ f.Link, ¬ isSecureLink v) →
        spawnLoop downloadDir [f] = []
        ∧ ∀ (podDir : String) (w : World) (fs : FS),
            runWorkers podDir w fs (spawnLoop downloadDir [f]) = .done () fs) := by
  have hmain : ∀ l : List FileInf,
      spawnLoop downloadDir l = l.filterMap (workerBySpec downloadDir) := by
    intro l
    induction l with
    | nil => rfl
    | cons f rest ih =>
      simp only [spawnLoop, List.filterMap_cons, workerBySpec, firstSecureLink_eq_find]
      cases List.find? (fun url => decide (isSecureLink url)) f.Link with
      | none => simpa [workerBySpec] using ih
      | some url => simpa [workerBySpec] using ih
  refine ⟨hmain _, ?_, ?_, ?_, ?_⟩
  · rw [hmain]
    exact List.length_filterMap_le _ _
  · intro w hw
    rw [hmain] at hw
    exact List.mem_filterMap.1 hw
  · intro f before after url hlink hbefore hurl
    rw [hmain]
    have hfind : f.Link.find? (fun url => decide (isSecureLink url)) = some url := by
      rw [hlink, List.find?_append]
      have hnone : before.find? (fun url => decide (isSecureLink url)) = none := by
        rw [List.find?_eq_none]
        intro v hv
        simpa using hbefore v hv
      simp [hnone, hurl]
    simp [workerBySpec, hfind]
  · intro f hnone
    have hfind : f.Link.find? (fun url => decide (isSecureLink url)) = none := by
      rw [List.find?_eq_none]
      intro v hv
      simpa using hnone v hv
    have hnil : spawnLoop downloadDir [f] = [] := by
      rw [hmain]
      simp [workerBySpec, hfind]
    refine ⟨hnil, fun podDir w fs => ?_⟩
    rw [hnil]
    rfl

/-- C6 on two outdated records: the first has an insecure link, then two secure ones;
the second has only links that do not start with the exact lower-case prefix. -/
theorem spawnLoop_first_secure_link_witness :
    spawnLoop "/pod/temp"
        [⟨"", "a.txt", "1A2B3C4D", "", "", ["http://m/a", "https://m/a", "https://n/a"]⟩,
          ⟨"", "b.txt", "FF", "", "", ["HTTPS://m/b", "ftp://m/b", "x https://m/b"]⟩]
      = [⟨"a.txt", "/pod/temp", "https://m/a", "1A2B3C4D"⟩] :=
  (spawnLoop_first_secure_link "/pod/temp"
      [⟨"", "a.txt", "1A2B3C4D", "", "", ["http://m/a", "https://m/a", "https://n/a"]⟩,
        ⟨"", "b.txt", "FF", "", "", ["HTTPS://m/b", "ftp://m/b", "x https://m/b"]⟩]).1.trans
    (by decide)

/-! ## Facts about the filesystem table and the worker -/

theorem FS.find_del_same (fs : FS) (p : String) : (fs.del p).find p = none := by
  induction fs with
  | nil => rfl
  | cons e rest ih =>
    obtain ⟨k, n⟩ := e
    simp only [FS.del]
    split
    · exact ih
    · rename_i h
      simp [FS.find, h, ih]

theorem FS.find_del_other (fs : FS) (p q : String) (h : q ≠ p) :
    (fs.del p).find q = fs.find q := by
  induction fs with
  | nil => rfl
  | cons e rest ih =>
    obtain ⟨k, n⟩ := e
    simp only [FS.del]
    split
    · rename_i hk
      subst hk
      have : ¬ k = q := fun hc => h hc.symm
      simp [FS.find, this, ih]
    · simp only [FS.find]
      split
      · rfl
      · exact ih

theorem FS.lookup_del_same (fs : FS) (p : String) : (fs.del p).lookup p = none := by
  unfold FS.lookup
  split
  · rfl
  · exact FS.find_del_same fs p

theorem FS.lookup_del_other (fs : FS) (p q : String) (h : q ≠ p) :
    (fs.del p).lookup q = fs.lookup q := by
  unfold FS.lookup
  rw [FS.find_del_other fs p q h]

theorem FS.lookup_put_same (fs : FS) (p : String) (n : Node) (hp : p ≠ "") :
    (fs.put p n).lookup p = some n := by
  simp [FS.put, FS.lookup, FS.find, hp]

theorem FS.lookup_put_other (fs : FS) (p q : String) (n : Node) (h : q ≠ p) :
    (fs.put p n).lookup q = fs.lookup q := by
  have : ¬ p = q := fun hc => h hc.symm
  simp [FS.put, FS.lookup, FS.find, this, FS.find_del_other fs p q h]

theorem osCreate_lookup (fs fs1 : FS) (p : String) (h : osCreate fs p = .ok fs1) :
    ∀ q, q ≠ p → fs1.lookup q = fs.lookup q := by
  intro q hq
  unfold osCreate at h
  split at h
  · simp at h
  · split at h
    · simp at h
    · simp only [Except.ok.injEq] at h
      subst h
      exact FS.lookup_put_other fs p q _ hq

theorem downloadFile_lookup (w : World) (fs fs1 : FS) (savepath url : String)
    (r : Content × Option GoError) (h : downloadFile w fs savepath url = .done r fs1) :
    ∀ q, q ≠ savepath → fs1.lookup q = fs.lookup q := by
  intro q hq
  unfold downloadFile at h
  split at h
  · simp only [Outcome.done.injEq] at h
    rw [← h.2]
  · simp at h
  · simp only [] at h
    split at h
    · split at h
      · simp only [Outcome.done.injEq] at h
        rw [← h.2]
      · rename_i fs0 hc
        simp only [ioWriteString, Outcome.done.injEq] at h
        rw [← h.2, FS.lookup_put_other _ _ _ _ hq]
        exact osCreate_lookup fs fs0 savepath hc q hq
    · simp only [Outcome.done.injEq] at h
      rw [← h.2]

theorem downloadFile_done (w : World) (fs fs1 : FS) (savepath url : String)
    (content : Content) (err : Option GoError)
    (h : downloadFile w fs savepath url = .done (content, err) fs1) :
    (err = none → w.http url = .body content)
    ∧ (err = none → savepath ≠ "" →
        fs1.lookup savepath = some (.file (writtenBytes (w.room savepath) content)))
    ∧ (∀ body, w.http url = .body body → content = body) := by
  unfold downloadFile at h
  split at h
  · rename_i hb
    simp only [Outcome.done.injEq, Prod.mk.injEq] at h
    refine ⟨fun he => ?_, fun he => ?_, fun body hbody => ?_⟩
    · rw [he] at h
      simp at h
    · rw [he] at h
      simp at h
    · rw [hb] at hbody
      simp at hbody
  · simp at h
  · rename_i body0 hb
    simp only [] at h
    split at h
    · rename_i hsave
      split at h
      · simp only [Outcome.done.injEq, Prod.mk.injEq] at h
        refine ⟨fun he => ?_, fun he => ?_, fun body hbody => ?_⟩
        · rw [he] at h
          simp at h
        · rw [he] at h
          simp at h
        · rw [hb] at hbody
          simp only [HttpResult.body.injEq] at hbody
          rw [← h.1.1, hbody]
      · simp only [ioWriteString, Outcome.done.injEq, Prod.mk.injEq] at h
        obtain ⟨⟨hc, _⟩, hf⟩ := h
        subst hc
        subst hf
        refine ⟨fun _ => hb, fun _ _ => FS.lookup_put_same _ _ _ hsave, fun body hbody => ?_⟩
        rw [hb] at hbody
        simpa using hbody
    · rename_i hsave
      simp only [Outcome.done.injEq, Prod.mk.injEq] at h
      obtain ⟨⟨hc, _⟩, hf⟩ := h
      subst hc
      refine ⟨fun _ => hb, fun _ hs => absurd hs hsave, fun body hbody => ?_⟩
      rw [hb] at hbody
      simpa using hbody

theorem osRemove_ok (fs fs2 : FS) (p : String) (h : osRemove fs p = .ok fs2) :
    fs2 = fs.del p := by
  unfold osRemove at h
  split at h
  · simp at h
  · simp only [Except.ok.injEq] at h
    exact h.symm
  · split at h
    · simp at h
    · simp only [Except.ok.injEq] at h
      exact h.symm

theorem parentCheck_ok (fs : FS) (p : String) (h : parentCheck fs p = .ok ()) : p ≠ "" := by
  intro hp
  simp [parentCheck, hp] at h

theorem osRename_ok (fs fs3 : FS) (oldpath newpath : String)
    (h : osRename fs oldpath newpath = .ok fs3) :
    ∃ c, fs.lookup oldpath = some (.file c) ∧ newpath ≠ ""
      ∧ fs3 = (fs.del oldpath).put newpath (.file c) := by
  unfold osRename at h
  split at h
  · simp at h
  · simp at h
  · rename_i c hc
    split at h
    · simp at h
    · split at h
      · simp at h
      · rename_i hpc
        simp only [Except.ok.injEq] at h
        exact ⟨c, hc, parentCheck_ok fs newpath hpc, h.symm⟩

/-- C4, amended: for a record with a non-empty expected checksum whose staging path
differs from its destination path, and a downloaded body whose checksum differs from
the expected one, `downloadAndReplace` ends in a fatal error and nothing but the
staging path has changed: the destination has the same existence and content as
before. -/
theorem downloadAndReplace_mismatch_keeps_destination (podDir : String) (w : World)
    (fs : FS) (file downloadDir url checksum : String) (body : Content)
    (hcrc : checksum ≠ "") (hnet : w.http url = .body body)
    (hbad : getChecksum body ≠ checksum)
    (hpath : pathJoin [downloadDir, file] ≠ pathJoin [podDir, file]) :
    ∃ why fs1, downloadAndReplace podDir w fs file downloadDir url checksum = .fatal why fs1
      ∧ fs1.lookup (pathJoin [podDir, file]) = fs.lookup (pathJoin [podDir, file])
      ∧ (∀ q, q ≠ pathJoin [downloadDir, file] → fs1.lookup q = fs.lookup q) := by
  unfold downloadAndReplace
  simp only []
  cases hd : downloadFile w fs (pathJoin [downloadDir, file]) url with
  | fatal why fs1 =>
    unfold downloadFile at hd
    rw [hnet] at hd
    simp only [] at hd
    split at hd
    · split at hd <;> simp at hd
    · simp at hd
  | done r fs1 =>
    have hkeep := downloadFile_lookup w fs fs1 _ url r hd
    obtain ⟨content, err⟩ := r
    cases err with
    | some e =>
      exact ⟨_, fs1, rfl, hkeep _ (Ne.symm hpath), hkeep⟩
    | none =>
      have hbody : content = body := (downloadFile_done w fs fs1 _ url content none hd).2.2 body hnet
      subst hbody
      simp only [hcrc, hbad, ne_eq, not_false_eq_true, and_self, if_true]
      exact ⟨_, fs1, rfl, hkeep _ (Ne.symm hpath), hkeep⟩

/-- C4, amended, on a flat name: the bad body is staged under the temp directory and the
stale destination file is left as it was. -/
theorem downloadAndReplace_mismatch_keeps_destination_witness :
    downloadAndReplace "/pod" ⟨fun _ => .body (asciiBytes "bad"), fun _ => none⟩
        [("/pod", .dir), ("/pod/temp", .dir), ("/pod/a.txt", .file (asciiBytes "old"))]
        "a.txt" "/pod/temp" "https://m/a" "1A2B3C4D"
      = .fatal (.invalidChecksum "/pod/temp/a.txt" "1A2B3C4D" "822B39FB")
          [("/pod/temp/a.txt", .file (asciiBytes "bad")), ("/pod", .dir), ("/pod/temp", .dir),
            ("/pod/a.txt", .file (asciiBytes "old"))]
    ∧ ∃ why fs1, downloadAndReplace "/pod" ⟨fun _ => .body (asciiBytes "bad"), fun _ => none⟩
        [("/pod", .dir), ("/pod/temp", .dir), ("/pod/a.txt", .file (asciiBytes "old"))]
        "a.txt" "/pod/temp" "https://m/a" "1A2B3C4D" = .fatal why fs1
      ∧ fs1.lookup (pathJoin ["/pod", "a.txt"])
          = FS.lookup [("/pod", .dir), ("/pod/temp", .dir),
              ("/pod/a.txt", .file (asciiBytes "old"))] (pathJoin ["/pod", "a.txt"])
      ∧ (∀ q, q ≠ pathJoin ["/pod/temp", "a.txt"] → fs1.lookup q
          = FS.lookup [("/pod", .dir), ("/pod/temp", .dir),
              ("/pod/a.txt", .file (asciiBytes "old"))] q) :=
  ⟨by decide,
    downloadAndReplace_mismatch_keeps_destination "/pod"
      ⟨fun _ => .body (asciiBytes "bad"), fun _ => none⟩
      [("/pod", .dir), ("/pod/temp", .dir), ("/pod/a.txt", .file (asciiBytes "old"))]
      "a.txt" "/pod/temp" "https://m/a" "1A2B3C4D" (asciiBytes "bad")
      (by decide) rfl (by decide) (by decide)⟩

/-- C4 as stated fails when the name climbs out of the root: with root `/p` and name
`../../a` the staging path and the destination are both `/a`, so the body with the
wrong checksum is written over the destination before the checksum is compared. -/
theorem downloadAndReplace_mismatch_overwrites_escaped :
    pathJoin ["/p", "../../a"] = "/a"
    ∧ pathJoin [pathJoin ["/p", "/temp"], "../../a"] = "/a"
    ∧ getChecksum (asciiBytes "bad") ≠ "1A2B3C4D"
    ∧ downloadAndReplace "/p" ⟨fun _ => .body (asciiBytes "bad"), fun _ => none⟩
        [("/", .dir), ("/p", .dir), ("/p/temp", .dir), ("/a", .file (asciiBytes "good"))]
        "../../a" (pathJoin ["/p", "/temp"]) "https://m/a" "1A2B3C4D"
      = .fatal (.invalidChecksum "/a" "1A2B3C4D" "822B39FB")
          [("/a", .file (asciiBytes "bad")), ("/", .dir), ("/p", .dir), ("/p/temp", .dir)]
    ∧ FS.lookup [("/", .dir), ("/p", .dir), ("/p/temp", .dir),
          ("/a", .file (asciiBytes "good"))] (pathJoin ["/p", "../../a"])
        = some (.file (asciiBytes "good"))
    ∧ FS.lookup [("/a", .file (asciiBytes "bad")), ("/", .dir), ("/p", .dir),
          ("/p/temp", .dir)] (pathJoin ["/p", "../../a"])
        = some (.file (asciiBytes "bad")) := by
  refine ⟨by decide, by decide, by decide, by decide, by decide, by decide⟩

theorem rename_result (fs fs3 : FS) (filePath podFile : String) (content : Content)
    (hstaged : filePath ≠ "" → fs.lookup filePath = some (.file content))
    (h : osRename fs filePath podFile = .ok fs3) :
    fs3.lookup podFile = some (.file content) := by
  obtain ⟨c, hc, hnew, hfs⟩ := osRename_ok fs fs3 filePath podFile h
  by_cases hp : filePath = ""
  · simp [FS.lookup, hp] at hc
  · rw [hstaged hp] at hc
    simp only [Option.some.injEq, Node.file.injEq] at hc
    subst hc
    rw [hfs]
    exact FS.lookup_put_same _ _ _ hnew

/-- Whenever `downloadAndReplace` returns without a fatal error, the destination holds
the bytes of the downloaded body that reached the staging file, and the checksum of
the whole body is the expected one when one is declared. -/
theorem downloadAndReplace_done_written (podDir : String) (w : World) (fs fs1 : FS)
    (file downloadDir url checksum : String) (hcrc : checksum ≠ "")
    (h : downloadAndReplace podDir w fs file downloadDir url checksum = .done () fs1) :
    ∃ body, w.http url = .body body
      ∧ fs1.lookup (pathJoin [podDir, file])
          = some (.file (writtenBytes (w.room (pathJoin [downloadDir, file])) body))
      ∧ getChecksum body = checksum := by
  unfold downloadAndReplace at h
  simp only [] at h
  cases hd : downloadFile w fs (pathJoin [downloadDir, file]) url with
  | fatal why fs0 =>
    rw [hd] at h
    simp at h
  | done r fs0 =>
    rw [hd] at h
    obtain ⟨content, err⟩ := r
    cases err with
    | some e => simp at h
    | none =>
      simp only [] at h
      obtain ⟨hbody, hstaged, _⟩ := downloadFile_done w fs fs0 _ url content none hd
      have hbody := hbody rfl
      have hstaged := hstaged rfl
      split at h
      · simp at h
      · rename_i hok
        have hsum : getChecksum content = checksum := by
          by_contra hne
          exact hok ⟨hcrc, hne⟩
        refine ⟨content, hbody, ?_, hsum⟩
        split at h
        · split at h
          · simp at h
          · rename_i fs2 hrm
            split at h
            · simp at h
            · rename_i fs3 hrn
              simp only [Outcome.done.injEq, true_and] at h
              subst h
              have hfs2 := osRemove_ok fs0 fs2 _ hrm
              have hne : pathJoin [downloadDir, file] ≠ pathJoin [podDir, file] := by
                intro heq
                obtain ⟨c, hc, _, _⟩ := osRename_ok fs2 fs3 _ _ hrn
                rw [hfs2, heq, FS.lookup_del_same] at hc
                simp at hc
              apply rename_result fs2 fs3 _ _ _ _ hrn
              intro hp
              rw [hfs2, FS.lookup_del_other _ _ _ hne]
              exact hstaged hp
        · split at h
          · simp at h
          · rename_i fs3 hrn
            simp only [Outcome.done.injEq, true_and] at h
            subst h
            exact rename_result fs0 fs3 _ _ _ hstaged hrn

/-- C5, as the code behaves, on the record `a.txt` with declared checksum `1A2B3C4D`, a
body that has this checksum, and a device with no room left for the staging file:
`io.WriteString` fails, its error is lost, the checksum of the body in memory is the
declared one, and the worker returns without a fatal error after moving the empty
staging file onto the destination, whose checksum is then `0`. -/
theorem downloadAndReplace_done_short_write :
    getChecksum [57, 223, 190, 100] = "1A2B3C4D"
    ∧ (ioWriteString (some 0) [] "/pod/temp/a.txt" [57, 223, 190, 100]).2 = some .noSpace
    ∧ downloadAndReplace "/pod" ⟨fun _ => .body [57, 223, 190, 100], fun _ => some 0⟩
        [("/pod", .dir), ("/pod/temp", .dir), ("/pod/a.txt", .file (asciiBytes "old"))]
        "a.txt" "/pod/temp" "https://m/a" "1A2B3C4D"
      = .done () [("/pod/a.txt", .file []), ("/pod", .dir), ("/pod/temp", .dir)]
    ∧ FS.lookup [("/pod/a.txt", .file []), ("/pod", .dir), ("/pod/temp", .dir)]
        (pathJoin ["/pod", "a.txt"]) = some (.file [])
    ∧ getChecksum [] = "0" := by
  refine ⟨by decide, by decide, by decide, by decide, by decide⟩

/-- C8, as the code behaves, on the record of the scenario (`data/a.txt`, declared
checksum `1A2B3C4D`, one secure link whose body has that checksum) and a root that has
`data/a.txt` with other content and no temp directory: the staging path keeps the
nested name, `os.Create` fails there because `temp/data` does not exist, the run ends
in a fatal download error, and the local file still has its old content and
checksum. -/
theorem nested_name_staging_fails :
    getChecksum [57, 223, 190, 100] = "1A2B3C4D"
    ∧ pathJoin [pathJoin ["/pod", "/temp"], "data/a.txt"] = "/pod/temp/data/a.txt"
    ∧ FS.lookup [("/pod", .dir), ("/pod/data", .dir),
          ("/pod/data/a.txt", .file (asciiBytes "old"))] (pathJoin ["/pod", "/temp"]) = none
    ∧ updateRun "/pod" false
        ⟨fun url => if url = "https://x/a.txt" then .body [57, 223, 190, 100] else .getError,
          fun _ => none⟩
        [("/pod", .dir), ("/pod/data", .dir), ("/pod/data/a.txt", .file (asciiBytes "old"))]
        ⟨"", [⟨"", "data/a.txt", "1A2B3C4D", "", "", ["https://x/a.txt"]⟩]⟩
      = .fatal (.download "/pod/temp/data/a.txt" (.os .notExist))
          [("/pod/temp", .dir), ("/pod", .dir), ("/pod/data", .dir),
            ("/pod/data/a.txt", .file (asciiBytes "old"))]
    ∧ getChecksum (asciiBytes "old") = "3F5DD4E5" := by
  refine ⟨by decide, by decide, by decide, by decide, by decide⟩

/-! ## Facts about lexical paths -/

theorem splitSlash_ne_nil (l : List Char) : splitSlash l ≠ [] := by
  cases l with
  | nil => simp [splitSlash]
  | cons c cs =>
    simp only [splitSlash]
    split
    · simp
    · split <;> simp

theorem splitSlash_append_slash (X N : List Char) :
    splitSlash (X ++ '/' :: N) = splitSlash X ++ splitSlash N := by
  induction X with
  | nil => simp [splitSlash]
  | cons c X' ih =>
    simp only [List.cons_append, splitSlash]
    split
    · simp [ih]
    · simp only [List.append_eq]
      rw [ih]
      cases hX : splitSlash X' with
      | nil => exact absurd hX (splitSlash_ne_nil X')
      | cons e es => simp

theorem splitSlash_no_slash (l : List Char) : ∀ e ∈ splitSlash l, '/' ∉ e := by
  induction l with
  | nil => simp [splitSlash]
  | cons c cs ih =>
    simp only [splitSlash]
    split
    · intro e he
      rcases List.mem_cons.1 he with h | h
      · subst h; simp
      · exact ih e h
    · rename_i hc
      cases hX : splitSlash cs with
      | nil => exact absurd hX (splitSlash_ne_nil cs)
      | cons e0 es =>
        rw [hX] at ih
        intro e he
        simp only [List.mem_cons] at he
        rcases he with h | h
        · subst h
          intro hm
          rcases List.mem_cons.1 hm with h1 | h1
          · exact hc h1.symm
          · exact ih e0 (List.mem_cons_self _ _) h1
        · exact ih e (List.mem_cons_of_mem _ h)

theorem splitSlash_of_no_slash (e : List Char) (h : '/' ∉ e) : splitSlash e = [e] := by
  induction e with
  | nil => rfl
  | cons c cs ih =>
    have hc : ¬ c = '/' := fun hc => h (by simp [hc])
    have hcs : '/' ∉ cs := fun hm => h (List.mem_cons_of_mem _ hm)
    simp [splitSlash, hc, ih hcs]

theorem splitSlash_joinSlash (E : List (List Char)) (hne : E ≠ [])
    (h : ∀ e ∈ E, '/' ∉ e) : splitSlash (joinSlash E) = E := by
  induction E with
  | nil => exact absurd rfl hne
  | cons e es ih =>
    cases es with
    | nil => simpa [joinSlash] using splitSlash_of_no_slash e (h e (List.mem_cons_self _ _))
    | cons e1 es1 =>
      simp only [joinSlash]
      rw [splitSlash_append_slash, splitSlash_of_no_slash e (h e (List.mem_cons_self _ _)),
        ih (by simp) (fun x hx => h x (List.mem_cons_of_mem _ hx))]
      simp

theorem cleanStep_real (rooted : Bool) (st : CleanState) (e : List Char)
    (h1 : e ≠ []) (h2 : e ≠ ['.']) (h3 : e ≠ ['.', '.']) :
    cleanStep rooted st e = ⟨e :: st.out, st.dotdot⟩ := by
  simp [cleanStep, h1, h2, h3]

theorem foldl_cleanStep_no_dotdot (rooted : Bool) (L : List (List Char))
    (h : ['.', '.'] ∉ L) (st : CleanState) :
    L.foldl (cleanStep rooted) st
      = ⟨(L.filter (fun e => decide (e ≠ [] ∧ e ≠ ['.']))).reverse ++ st.out, st.dotdot⟩ := by
  induction L generalizing st with
  | nil => simp
  | cons e es ih =>
    have hes : ['.', '.'] ∉ es := fun hm => h (List.mem_cons_of_mem _ hm)
    have he : e ≠ ['.', '.'] := fun hc => h (by simp [hc])
    simp only [List.foldl_cons]
    rw [ih hes]
    by_cases h1 : e = []
    · simp [cleanStep, h1]
    · by_cases h2 : e = ['.']
      · simp [cleanStep, h2]
      · rw [cleanStep_real rooted st e h1 h2 he]
        simp [List.filter_cons, h1, h2]

theorem foldl_cleanStep_dotdots (k : Nat) : ∀ j : Nat,
    (List.replicate k ['.', '.']).foldl (cleanStep false) ⟨List.replicate j ['.', '.'], j⟩
      = ⟨List.replicate (j + k) ['.', '.'], j + k⟩ := by
  induction k with
  | zero => intro j; simp
  | succ k ih =>
    intro j
    simp only [List.replicate_succ, List.foldl_cons]
    have hstep : cleanStep false ⟨List.replicate j ['.', '.'], j⟩ ['.', '.']
        = ⟨List.replicate (j + 1) ['.', '.'], j + 1⟩ := by
      simp [cleanStep, List.replicate_succ]
    rw [hstep, ih (j + 1)]
    have : j + 1 + k = j + (k + 1) := by omega
    rw [this]

theorem CleanState.Inv_init (rooted : Bool) : CleanState.Inv rooted ⟨[], 0⟩ :=
  ⟨[], by simp, by simp, fun _ => rfl⟩

theorem CleanState.Inv_step (rooted : Bool) (st : CleanState) (e : List Char)
    (hinv : st.Inv rooted) (hslash : '/' ∉ e) : (cleanStep rooted st e).Inv rooted := by
  obtain ⟨reals, hout, hreal, hroot⟩ := hinv
  by_cases h1 : e = []
  · simpa [cleanStep, h1] using ⟨reals, hout, hreal, hroot⟩
  · by_cases h2 : e = ['.']
    · simpa [cleanStep, h2] using ⟨reals, hout, hreal, hroot⟩
    · by_cases h3 : e = ['.', '.']
      · subst h3
        have hlen : st.out.length = reals.length + st.dotdot := by
          rw [hout]; simp
        by_cases hgt : st.out.length > st.dotdot
        · have hne : reals ≠ [] := by
            intro hc
            rw [hc] at hlen
            simp at hlen
            omega
          obtain ⟨r0, rs, hrs⟩ := List.exists_cons_of_ne_nil hne
          subst hrs
          have hs : cleanStep rooted st ['.', '.'] = ⟨st.out.tail, st.dotdot⟩ := by
            simp [cleanStep, hgt]
          rw [hs]
          exact ⟨rs, by simp [hout], fun x hx => hreal x (List.mem_cons_of_mem _ hx), hroot⟩
        · have hnil : reals = [] := by
            apply List.length_eq_zero.1
            omega
          subst hnil
          cases rooted with
          | true =>
            have hs : cleanStep true st ['.', '.'] = st := by
              simp [cleanStep, hgt]
            rw [hs]
            exact ⟨[], hout, by simp, hroot⟩
          | false =>
            have hs : cleanStep false st ['.', '.']
                = ⟨['.', '.'] :: st.out, st.out.length + 1⟩ := by
              simp [cleanStep, hgt]
            rw [hs]
            refine ⟨[], ?_, by simp, by simp⟩
            simp only [List.nil_append] at hout
            have hl : st.out.length = st.dotdot := by simpa using hlen
            simp only [List.nil_append, hl]
            rw [hout]
            simp [List.replicate_succ]
      · rw [cleanStep_real rooted st e h1 h2 h3]
        refine ⟨e :: reals, by simp [hout], ?_, hroot⟩
        intro x hx
        rcases List.mem_cons.1 hx with h | h
        · subst h
          exact ⟨h1, h2, h3, hslash⟩
        · exact hreal x h

theorem CleanState.Inv_foldl (rooted : Bool) (L : List (List Char))
    (hslash : ∀ e ∈ L, '/' ∉ e) (st : CleanState) (hinv : st.Inv rooted) :
    (L.foldl (cleanStep rooted) st).Inv rooted := by
  induction L generalizing st with
  | nil => simpa using hinv
  | cons e es ih =>
    simp only [List.foldl_cons]
    exact ih (fun x hx => hslash x (List.mem_cons_of_mem _ hx)) _
      (CleanState.Inv_step rooted st e hinv (hslash e (List.mem_cons_self _ _)))

theorem joinSlash_cons_cons (c : Char) (cs : List Char) (es : List (List Char)) :
    ∃ tl, joinSlash ((c :: cs) :: es) = c :: tl := by
  cases es with
  | nil => exact ⟨cs, rfl⟩
  | cons e1 es1 => exact ⟨cs ++ '/' :: joinSlash (e1 :: es1), rfl⟩

theorem filter_good_eq_self (E : List (List Char))
    (h : ∀ e ∈ E, e ≠ [] ∧ e ≠ ['.']) :
    E.filter (fun e => decide (e ≠ [] ∧ e ≠ ['.'])) = E := by
  rw [List.filter_eq_self]
  intro e he
  simpa using h e he

theorem CleanState.clean_render (rooted : Bool) (st : CleanState) (hinv : st.Inv rooted) :
    isRooted (renderPath rooted st.out.reverse) = rooted
    ∧ renderPath rooted st.out.reverse ≠ []
    ∧ (splitSlash (renderPath rooted st.out.reverse)).foldl (cleanStep rooted) ⟨[], 0⟩ = st := by
  obtain ⟨reals, hout, hreal, hroot⟩ := hinv
  obtain ⟨out, dd⟩ := st
  simp only at hout hroot
  subst hout
  have hE : (reals ++ List.replicate dd ['.', '.']).reverse
      = List.replicate dd ['.', '.'] ++ reals.reverse := by
    simp
  simp only []
  rw [hE]
  have hslash : ∀ e ∈ List.replicate dd ['.', '.'] ++ reals.reverse, '/' ∉ e := by
    intro e he
    rcases List.mem_append.1 he with h | h
    · rw [List.eq_of_mem_replicate h]
      decide
    · exact (hreal e (List.mem_reverse.1 h)).2.2.2
  have hnonempty : ∀ e ∈ List.replicate dd ['.', '.'] ++ reals.reverse, e ≠ [] := by
    intro e he
    rcases List.mem_append.1 he with h | h
    · rw [List.eq_of_mem_replicate h]
      decide
    · exact (hreal e (List.mem_reverse.1 h)).1
  have hgood : ∀ e ∈ reals.reverse, e ≠ [] ∧ e ≠ ['.'] :=
    fun e he => ⟨(hreal e (List.mem_reverse.1 he)).1, (hreal e (List.mem_reverse.1 he)).2.1⟩
  have hnodd : ['.', '.'] ∉ reals.reverse :=
    fun hm => (hreal _ (List.mem_reverse.1 hm)).2.2.1 rfl
  cases rooted with
  | true =>
    have hdd : dd = 0 := hroot rfl
    subst hdd
    simp only [List.replicate_zero, List.nil_append, List.append_nil] at *
    refine ⟨by simp [renderPath, isRooted], by simp [renderPath], ?_⟩
    simp only [renderPath, if_true, splitSlash, List.foldl_cons]
    have h0 : cleanStep true ⟨[], 0⟩ [] = ⟨[], 0⟩ := by simp [cleanStep]
    rw [h0]
    by_cases hnil : reals.reverse = []
    · have hr : reals = [] := by simpa using hnil
      subst hr
      simp [joinSlash, splitSlash, cleanStep]
    · rw [splitSlash_joinSlash _ hnil hslash, foldl_cleanStep_no_dotdot true _ hnodd,
        filter_good_eq_self _ hgood]
      simp
  | false =>
    by_cases hnil : List.replicate dd ['.', '.'] ++ reals.reverse = []
    · have h1 : dd = 0 := by
        by_contra hc
        have : (List.replicate dd ['.', '.'] ++ reals.reverse).length = 0 := by rw [hnil]; rfl
        simp at this
        omega
      have h2 : reals = [] := by
        have : (List.replicate dd ['.', '.'] ++ reals.reverse).length = 0 := by rw [hnil]; rfl
        simp at this
        exact this.2
      subst h1
      subst h2
      simp [renderPath, isRooted, splitSlash, cleanStep]
    · have hrender : renderPath false (List.replicate dd ['.', '.'] ++ reals.reverse)
          = joinSlash (List.replicate dd ['.', '.'] ++ reals.reverse) := by
        simp only [renderPath, hnil, if_false]
        simp
      rw [hrender]
      obtain ⟨e0, es, hes⟩ := List.exists_cons_of_ne_nil hnil
      have he0 : e0 ∈ List.replicate dd ['.', '.'] ++ reals.reverse := by
        rw [hes]; exact List.mem_cons_self _ _
      obtain ⟨c, cs, hc⟩ := List.exists_cons_of_ne_nil (hnonempty e0 he0)
      have hcne : c ≠ '/' := by
        intro h
        apply hslash e0 he0
        rw [hc, h]
        exact List.mem_cons_self _ _
      obtain ⟨tl, htl⟩ := joinSlash_cons_cons c cs es
      refine ⟨?_, ?_, ?_⟩
      · rw [hes, hc, htl]
        simp [isRooted, hcne]
      · rw [hes, hc, htl]
        simp
      · rw [splitSlash_joinSlash _ hnil hslash, List.foldl_append]
        have := foldl_cleanStep_dotdots dd 0
        simp only [List.replicate_zero, Nat.zero_add] at this
        rw [this, foldl_cleanStep_no_dotdot false _ hnodd, filter_good_eq_self _ hgood]
        simp

theorem cleanElems_inv (X : List Char) :
    ((splitSlash X).foldl (cleanStep (isRooted X)) ⟨[], 0⟩).Inv (isRooted X) :=
  CleanState.Inv_foldl _ _ (splitSlash_no_slash X) _ (CleanState.Inv_init _)

theorem pathClean_data (s : String) (h : s.data ≠ []) :
    (pathClean s).data = renderPath (isRooted s.data) (cleanElems s.data) := by
  simp [pathClean, h]

theorem pathClean_facts (s : String) (h : s.data ≠ []) :
    isRooted (pathClean s).data = isRooted s.data
    ∧ (pathClean s).data ≠ []
    ∧ cleanElems (pathClean s).data = cleanElems s.data := by
  rw [pathClean_data s h]
  obtain ⟨h1, h2, h3⟩ := CleanState.clean_render _ _ (cleanElems_inv s.data)
  refine ⟨h1, h2, ?_⟩
  unfold cleanElems at *
  rw [h1, h3]

theorem isRooted_append_slash (X N : List Char) (h : X ≠ []) :
    isRooted (X ++ '/' :: N) = isRooted X := by
  cases X with
  | nil => exact absurd rfl h
  | cons c cs => simp [isRooted]

theorem cleanElems_append_slash (X N : List Char) (h : X ≠ [])
    (hN : ['.', '.'] ∉ splitSlash N) :
    cleanElems (X ++ '/' :: N)
      = cleanElems X ++ (splitSlash N).filter (fun e => decide (e ≠ [] ∧ e ≠ ['.'])) := by
  unfold cleanElems
  rw [isRooted_append_slash X N h, splitSlash_append_slash, List.foldl_append,
    foldl_cleanStep_no_dotdot _ _ hN]
  simp

theorem pathJoin_two_facts (a b : String) (ha : a.data ≠ [])
    (hb : ['.', '.'] ∉ splitSlash b.data) :
    isRooted (pathJoin [a, b]).data = isRooted a.data
    ∧ (pathJoin [a, b]).data ≠ []
    ∧ cleanElems (pathJoin [a, b]).data
        = cleanElems a.data ++ (splitSlash b.data).filter (fun e => decide (e ≠ [] ∧ e ≠ ['.'])) := by
  by_cases hbn : b.data = []
  · have hj : pathJoin [a, b] = pathClean a := by
      simp [pathJoin, List.filter, ha, hbn, joinSlash]
    rw [hj, hbn]
    obtain ⟨h1, h2, h3⟩ := pathClean_facts a ha
    refine ⟨h1, h2, ?_⟩
    rw [h3]
    simp [splitSlash]
  · have hj : pathJoin [a, b] = pathClean (String.mk (a.data ++ '/' :: b.data)) := by
      simp [pathJoin, List.filter, ha, hbn, joinSlash]
    rw [hj]
    have hne : (String.mk (a.data ++ '/' :: b.data)).data ≠ [] := by simp
    obtain ⟨h1, h2, h3⟩ := pathClean_facts _ hne
    refine ⟨?_, h2, ?_⟩
    · rw [h1]
      exact isRooted_append_slash _ _ ha
    · rw [h3]
      exact cleanElems_append_slash _ _ ha hb

theorem String.data_ne_nil_of_ne_empty (s : String) (h : s ≠ "") : s.data ≠ [] := by
  intro hc
  apply h
  cases s
  simp_all

theorem filter_good_no_dotdot (L : List (List Char)) (h : ['.', '.'] ∉ L) :
    ['.', '.'] ∉ L.filter (fun e => decide (e ≠ [] ∧ e ≠ ['.'])) :=
  fun hm => h (List.mem_filter.1 hm).1

/-- For a name without `..` elements the staging path and the destination differ. -/
theorem staging_ne_destination (podDir name : String) (hroot : podDir ≠ "")
    (hname : ['.', '.'] ∉ splitSlash name.data) :
    pathJoin [pathJoin [podDir, "/temp"], name] ≠ pathJoin [podDir, name] := by
  have hP := String.data_ne_nil_of_ne_empty podDir hroot
  obtain ⟨_, _, e1⟩ := pathJoin_two_facts podDir name hP hname
  obtain ⟨_, d2, d3⟩ := pathJoin_two_facts podDir "/temp" hP (by decide)
  obtain ⟨_, _, s3⟩ := pathJoin_two_facts (pathJoin [podDir, "/temp"]) name d2 hname
  intro heq
  rw [heq, e1, d3] at s3
  have := congrArg List.length s3
  simp [splitSlash] at this

/-- C9, amended: for every non-empty root and every name none of whose slash-separated
elements is `..` (a leading slash, empty elements and `.` elements are allowed), the
local path `path.Join(podDir, name)` and the staging path
`path.Join(path.Join(podDir, "/temp"), name)` both lie inside `podDir`. -/
theorem join_stays_inside (podDir name : String) (hroot : podDir ≠ "")
    (hname : ['.', '.'] ∉ splitSlash name.data) :
    liesInside podDir (pathJoin [podDir, name])
    ∧ liesInside podDir (pathJoin [pathJoin [podDir, "/temp"], name]) := by
  have hP := String.data_ne_nil_of_ne_empty podDir hroot
  obtain ⟨e1, _, e3⟩ := pathJoin_two_facts podDir name hP hname
  obtain ⟨d1, d2, d3⟩ := pathJoin_two_facts podDir "/temp" hP (by decide)
  obtain ⟨s1, _, s3⟩ := pathJoin_two_facts (pathJoin [podDir, "/temp"]) name d2 hname
  have hgood := filter_good_no_dotdot _ hname
  constructor
  · refine ⟨e1.symm, ?_, ?_⟩
    · rw [e3]
      exact List.prefix_append _ _
    · rw [e3, List.drop_left]
      exact hgood
  · refine ⟨(s1.trans d1).symm, ?_, ?_⟩
    · rw [s3, d3, List.append_assoc]
      exact List.prefix_append _ _
    · rw [s3, d3, List.append_assoc, List.drop_left]
      intro hm
      rcases List.mem_append.1 hm with h | h
      · revert h
        decide
      · exact hgood h

/-- C9, amended, on a name with a leading slash, an empty element and a `.` element. -/
theorem join_stays_inside_witness :
    pathJoin ["/games/pod", "/data//./a.txt"] = "/games/pod/data/a.txt"
    ∧ pathJoin [pathJoin ["/games/pod", "/temp"], "/data//./a.txt"]
        = "/games/pod/temp/data/a.txt"
    ∧ liesInside "/games/pod" (pathJoin ["/games/pod", "/data//./a.txt"])
    ∧ liesInside "/games/pod" (pathJoin [pathJoin ["/games/pod", "/temp"], "/data//./a.txt"]) :=
  ⟨by decide, by decide,
    join_stays_inside "/games/pod" "/data//./a.txt" (by decide) (by decide)⟩

/-- C9 as stated fails for a name with `..` elements: with root `/games/pod` the name
`../../etc/hosts` gives the local path `/etc/hosts` and the staging path
`/games/etc/hosts`, both outside the root. -/
theorem join_escapes_root :
    pathJoin ["/games/pod", "../../etc/hosts"] = "/etc/hosts"
    ∧ ¬ liesInside "/games/pod" (pathJoin ["/games/pod", "../../etc/hosts"])
    ∧ pathJoin [pathJoin ["/games/pod", "/temp"], "../../etc/hosts"] = "/games/etc/hosts"
    ∧ ¬ liesInside "/games/pod"
        (pathJoin [pathJoin ["/games/pod", "/temp"], "../../etc/hosts"]) := by
  refine ⟨by decide, by decide, by decide, by decide⟩

end PodPatcher
